import Mathlib

/-!
Formal model of the core of `bato_web_streamlit.py`, a manga-chapter
downloader: URL normalisation (`rewrite_image_url`, the mirror-domain
chapter-URL rewrite), the multi-strategy image-reference extractor, the
mirror-failover chapter resolver, and the PDF assembly engine (skip mode
and stitch mode).  Python strings are modelled as `String` / `List Char`,
PIL images as a record of width, height and mode; regular-expression
scans are implemented as explicit character-level scanners following the
regexes in the source; bounded (fuel) recursion is used where the Python
loop consumes more than one character per step, with fuel at least the
input length so the fuel never runs out.
-/

/-! ## Basic Python string primitives -/

def lowerCh (cs : List Char) : List Char := cs.map Char.toLower

/-- Python whitespace set used by `str.strip` and the regex class `\s`
(ASCII fragment). -/
def isPyWs (c : Char) : Bool :=
  [' ', '\t', '\n', '\r', '\x0b', '\x0c'].contains c

/-- Python substring test `pat in s` on character lists. -/
def listSub (pat : List Char) : List Char → Bool
  | [] => pat.isEmpty
  | c :: t => pat.isPrefixOf (c :: t) || listSub pat t

/-- Number of positions of `s` at which `pat` starts (occurrences may
overlap; used only to state single-occurrence hypotheses). -/
def occCount (pat : List Char) : List Char → Nat
  | [] => if pat.isPrefixOf ([] : List Char) then 1 else 0
  | c :: s => (if pat.isPrefixOf (c :: s) then 1 else 0) + occCount pat s

/-- Fuel-driven core of Python `str.replace(pat, rep)` (replace every
non-overlapping occurrence, scanning left to right). -/
def pyReplaceAllF (pat rep : List Char) : Nat → List Char → List Char
  | 0, s => s
  | _, [] => []
  | fuel+1, c :: s =>
    if pat.isPrefixOf (c :: s) then
      rep ++ pyReplaceAllF pat rep fuel ((c :: s).drop pat.length)
    else
      c :: pyReplaceAllF pat rep fuel s

/-- Python `s.replace(pat, rep)` — all occurrences replaced. -/
def pyReplaceAll (s pat rep : List Char) : List Char :=
  if pat.isEmpty then s else pyReplaceAllF pat rep s.length s

/-- Fuel-driven core of Python `str.replace(pat, rep, 1)`. -/
def pyReplaceFirstF (pat rep : List Char) : Nat → List Char → List Char
  | 0, s => s
  | _, [] => []
  | fuel+1, c :: s =>
    if pat.isPrefixOf (c :: s) then
      rep ++ (c :: s).drop pat.length
    else
      c :: pyReplaceFirstF pat rep fuel s

/-- Python `s.replace(pat, rep, 1)` — only the first occurrence replaced. -/
def pyReplaceFirst (s pat rep : List Char) : List Char :=
  if pat.isEmpty then rep ++ s else pyReplaceFirstF pat rep s.length s

/-- Python `str.strip()` (trim whitespace at both ends). -/
def pyStrip (cs : List Char) : List Char :=
  ((cs.dropWhile isPyWs).reverse.dropWhile isPyWs).reverse

/-- Python `str.split('\n')`: split at every newline, keeping empty pieces. -/
def splitNlAux (acc : List Char) : List Char → List (List Char)
  | [] => [acc.reverse]
  | c :: r => if c == '\n' then acc.reverse :: splitNlAux [] r
              else splitNlAux (c :: acc) r

/-- Order-preserving deduplication, Python `list(dict.fromkeys(urls))`:
keep the first occurrence of each element. -/
def pyDedupAux (seen : List String) : List String → List String
  | [] => []
  | a :: l => if seen.contains a then pyDedupAux seen l
              else a :: pyDedupAux (a :: seen) l

def pyDedup (l : List String) : List String := pyDedupAux [] l

/-! ## URL normalizer (source lines 37–41, 62–67, 104–109) -/

def BATO_DOMAINS : List String :=
  ["bato.si", "bato.ing", "ato.to", "dto.to", "fto.to", "hto.to",
   "jto.to", "lto.to", "mto.to", "nto.to", "vto.to", "wto.to",
   "bato.ac", "bato.bz", "bato.to", "comiko.net", "mangatoto.com"]

/-- Python `domain in url`. -/
def containsDomain (url d : String) : Bool := listSub d.data url.data

/-- The chapter-URL rewrite performed at the top of each resolver probe
(source lines 106–109): the first domain of `BATO_DOMAINS` that occurs as
a substring of `url` is replaced (every occurrence, via `str.replace`)
by `target`; if no known domain occurs, the URL is left unchanged. -/
def rewrite_chapter_url (url target : String) : String :=
  match BATO_DOMAINS.find? (fun d => containsDomain url d) with
  | some d => ⟨pyReplaceAll url.data d.data target.data⟩
  | none => url

/-- Extensions recognised by the CDN-prefix pattern of
`rewrite_image_url` (note: no `gif`). -/
def CDN_EXTS : List (List Char) := ["png", "jpg", "jpeg", "webp"].map String.data

/-- After a literal `.`, one of the `rewrite_image_url` extensions must
follow, and then either the end of the string or a `?` (the regex tail
`\.(png|jpg|jpeg|webp)(\?.*)?$`). -/
def cdnExtHereOk (rest : List Char) : Bool :=
  CDN_EXTS.any (fun e =>
    e.isPrefixOf rest &&
      ((rest.drop e.length).isEmpty || (rest.drop e.length).head? == some '?'))

/-- Scan a lowered string for a position where the regex tail
`\.(png|jpg|jpeg|webp)(\?.*)?$` can match. -/
def hasCdnExtAt : List Char → Bool
  | [] => false
  | c :: rest => (c == '.' && cdnExtHereOk rest) || hasCdnExtAt rest

/-- Python `re` lets `$` also match just before one trailing newline. -/
def stripOneNl (cs : List Char) : List Char :=
  if cs.getLast? == some '\n' then cs.dropLast else cs

/-- Whether `url` matches `^(https://k).*\.(png|jpg|jpeg|webp)(\?.*)?$`
with `re.I` (case-insensitive; `.` does not match a newline, and `$`
also matches before a single trailing newline). -/
def matchesCdn (url : String) : Bool :=
  let s := stripOneNl url.data
  !(s.contains '\n') &&
    "https://k".data.isPrefixOf (lowerCh s) && hasCdnExtAt (lowerCh s)

/-- Source lines 62–67: if the URL matches the CDN pattern, replace the
first occurrence of the literal `https://k` by `https://n`; otherwise
return the URL unchanged (also for the empty string). -/
def rewrite_image_url (url : String) : String :=
  if url.data.isEmpty then url
  else if matchesCdn url then
    ⟨pyReplaceFirst url.data "https://k".data "https://n".data⟩
  else url

/-! ## Image-reference extractor (source lines 69–101) -/

/-- JSON whitespace accepted by `json.loads`. -/
def isJsonWs (c : Char) : Bool := [' ', '\t', '\n', '\r'].contains c

/-- JSON escape sequences (the `\uXXXX` form is not modelled and makes
the parse fail; the well-known array variable holds plain URLs). -/
def jsonEscChar : Char → Option Char
  | '"' => some '"'
  | '\\' => some '\\'
  | '/' => some '/'
  | 'n' => some (Char.ofNat 10)
  | 't' => some (Char.ofNat 9)
  | 'r' => some (Char.ofNat 13)
  | 'b' => some (Char.ofNat 8)
  | 'f' => some (Char.ofNat 12)
  | _ => none

/-- Parse the body of a JSON string after the opening quote; returns the
string and the remaining characters after the closing quote. -/
def jsonStrBody : Nat → List Char → List Char → Option (String × List Char)
  | 0, _, _ => none
  | _, _, [] => none
  | fuel+1, acc, c :: r =>
    if c == '"' then some (⟨acc.reverse⟩, r)
    else if c == '\\' then
      match r with
      | [] => none
      | e :: r2 =>
        match jsonEscChar e with
        | some d => jsonStrBody fuel (d :: acc) r2
        | none => none
    else if c.toNat < 32 then none
    else jsonStrBody fuel (c :: acc) r

/-- Parse the items of a JSON array of strings, expecting the next item
(the opening `[`, or a `,`, has just been consumed). -/
def jsonArrItems : Nat → List Char → Option (List String)
  | 0, _ => none
  | fuel+1, l =>
    match l.dropWhile isJsonWs with
    | '"' :: r =>
      match jsonStrBody (r.length + 1) [] r with
      | none => none
      | some (s, rest) =>
        match rest.dropWhile isJsonWs with
        | ',' :: r2 =>
          match jsonArrItems fuel r2 with
          | some us => some (s :: us)
          | none => none
        | ']' :: r2 => if (r2.dropWhile isJsonWs).isEmpty then some [s] else none
        | _ => none
    | _ => none

/-- Model of `json.loads` restricted to arrays of strings (any other
JSON document makes the extraction attempt fail and fall through, like a
parse error in the source's `try`/`except`). -/
def jsonStrArr (cs : List Char) : Option (List String) :=
  match cs.dropWhile isJsonWs with
  | '[' :: r =>
    match r.dropWhile isJsonWs with
    | ']' :: r2 => if (r2.dropWhile isJsonWs).isEmpty then some [] else none
    | _ => jsonArrItems (r.length + 1) r
  | _ => none

/-- After the literal `imgHttps`, match `\s*=\s*(\[[^\]]*\])` and return
the captured bracketed array text. -/
def afterImgHttpsKey (l : List Char) : Option (List Char) :=
  match l.dropWhile isPyWs with
  | '=' :: l2 =>
    match l2.dropWhile isPyWs with
    | '[' :: l3 =>
      let body := l3.takeWhile (fun c => !(c == ']'))
      if (l3.drop body.length).isEmpty then none
      else some ('[' :: (body ++ [']']))
    | _ => none
  | _ => none

/-- Leftmost match of `re.search(r'imgHttps\s*=\s*(\[[^\]]*\])', s)`,
returning the captured group. -/
def searchImgHttpsF : List Char → Option (List Char)
  | [] => none
  | c :: t =>
    if "imgHttps".data.isPrefixOf (c :: t) then
      match afterImgHttpsKey ((c :: t).drop 8) with
      | some arr => some arr
      | none => searchImgHttpsF t
    else searchImgHttpsF t

/-- Strategy 1 (structured array, source lines 77–85): requires the
`imgHttps` marker, a regex match, a JSON parse, and a non-empty result;
otherwise the per-script walk falls through. -/
def strat1 (s : String) : Option (List String) :=
  if listSub "imgHttps".data s.data then
    match searchImgHttpsF s.data with
    | some arr =>
      match jsonStrArr arr with
      | some (u :: us) => some (u :: us)
      | _ => none
    | none => none
  else none

/-- Image extensions of the extractor regexes (these include `gif`). -/
def EXT5 : List (List Char) := ["jpg", "jpeg", "png", "webp", "gif"].map String.data

/-- Scan for `\.(jpg|jpeg|png|webp|gif)` anywhere in a lowered string. -/
def dotExtScan : List Char → Bool
  | [] => false
  | c :: r => (c == '.' && EXT5.any (fun e => e.isPrefixOf r)) || dotExtScan r

/-- The part of a quoted segment after `https://` must contain at least
one character and then a dot-extension (regex `[^"]+\.(?:ext)`). -/
def hasMidDotExt : List Char → Bool
  | [] => false
  | _ :: r => dotExtScan r

/-- A quoted segment matches
`https://[^"]+\.(?:jpg|jpeg|png|webp|gif)[^"]*` under `re.I`. -/
def seg2ok (seg : List Char) : Bool :=
  "https://".data.isPrefixOf (lowerCh seg) && hasMidDotExt ((lowerCh seg).drop 8)

/-- Fuel-driven `re.findall(r'"(https://[^"]+\.(?:ext)[^"]*)"', s, re.I)`:
non-overlapping quoted segments whose content is an image URL, in order
of appearance, without deduplication. -/
def findall2F : Nat → List Char → List String
  | 0, _ => []
  | _, [] => []
  | fuel+1, c :: rest =>
    if c == '"' then
      let seg := rest.takeWhile (fun d => !(d == '"'))
      match rest.drop seg.length with
      | [] => []
      | _ :: afterQ =>
        if seg2ok seg then ⟨seg⟩ :: findall2F fuel afterQ
        else findall2F fuel rest
    else findall2F fuel rest

def findall2 (cs : List Char) : List String := findall2F cs.length cs

/-- Strategy 2 (marker token, source lines 87–90): requires one of the
`imgHttpLis` / `batoPass` markers and a non-empty quoted-URL scan. -/
def strat2 (s : String) : Option (List String) :=
  if listSub "imgHttpLis".data s.data || listSub "batoPass".data s.data then
    match findall2 s.data with
    | [] => none
    | u :: us => some (u :: us)
  else none

/-- One iteration of the first extractor loop (source lines 73–90): a
script without a body is skipped; otherwise strategy 1 is attempted and,
if it yields nothing, strategy 2 — both within the same iteration. -/
def perScript : Option String → Option (List String)
  | none => none
  | some s =>
    match strat1 s with
    | some u => some u
    | none => strat2 s

/-- The first extractor loop: scripts in page order, returning the first
per-script result. -/
def firstLoop : List (Option String) → Option (List String)
  | [] => none
  | os :: rest =>
    match perScript os with
    | some u => some u
    | none => firstLoop rest

/-- Character class `[^\s"\'<>]` of the fallback URL regex (negated). -/
def stop3 (c : Char) : Bool :=
  isPyWs c || c == '"' || c == '\'' || c == '<' || c == '>'

/-- At offset `L` of the run, match `\.(?:jpg|jpeg|png|webp|gif)`
case-insensitively; returns the extension length. -/
def extAtDot (run : List Char) (L : Nat) : Option Nat :=
  match run.drop L with
  | '.' :: r => (EXT5.find? (fun e => e.isPrefixOf (lowerCh (r.take 4)))).map List.length
  | _ => none

/-- Greedy backtracking of `[^\s"\'<>]+`: the rightmost offset `L ≥ 1`
of the run at which a dot-extension matches. -/
def bestDot (run : List Char) : Option (Nat × Nat) :=
  (List.range run.length).foldl
    (fun acc L =>
      if 1 ≤ L then
        match extAtDot run L with
        | some el => some (L, el)
        | none => acc
      else acc)
    none

/-- Fuel-driven
`re.findall(r'https://[^\s"\'<>]+\.(?:ext)(?:\?[^\s"\'<>]*)?', s, re.I)`:
at each `https://` the run of allowed characters is cut at the rightmost
dot-extension; a `?` right after the extension extends the match to the
end of the run; scanning resumes after the match. -/
def findall3F : Nat → List Char → List String
  | 0, _ => []
  | _, [] => []
  | fuel+1, c :: t =>
    if "https://".data.isPrefixOf (lowerCh ((c :: t).take 8)) then
      let run := ((c :: t).drop 8).takeWhile (fun d => !(stop3 d))
      match bestDot run with
      | some (L, el) =>
        let stop := L + 1 + el
        let n := if (run.drop stop).head? == some '?' then run.length else stop
        ⟨(c :: t).take (8 + n)⟩ :: findall3F fuel ((c :: t).drop (8 + n))
      | none => findall3F fuel t
    else findall3F fuel t

def findall3 (cs : List Char) : List String := findall3F cs.length cs

/-- The fallback loop (source lines 92–99): per script, broad-scan for
image URLs; deduplicate preserving first occurrence; accept only a
result with at least 3 distinct URLs, else move to the next script. -/
def fallbackLoop : List (Option String) → Option (List String)
  | [] => none
  | none :: rest => fallbackLoop rest
  | some s :: rest =>
    match findall3 s.data with
    | [] => fallbackLoop rest
    | u :: us =>
      let uniq := pyDedup (u :: us)
      if 3 ≤ uniq.length then some uniq else fallbackLoop rest

/-- Source lines 69–101: the full extractor over the page's script
bodies (a `none` entry models a script whose `.string` is `None`). -/
def extract_images_multi_strategy (scripts : List (Option String)) : List String :=
  match firstLoop scripts with
  | some u => u
  | none => (fallbackLoop scripts).getD []

/-! ## Chapter resolver (source lines 103–137) -/

/-- A fetched chapter page: the inline script bodies (in document order)
and the text of the first title-bearing element, if any. -/
structure Page where
  scripts : List (Option String)
  title : Option String
deriving DecidableEq

structure ChapterManifest where
  title : String
  images : List String
  domain : String
deriving DecidableEq

/-- Candidate domains in probe order: the two probe domains followed by
the full mirror list (so `bato.si` and `bato.ing` appear twice). -/
def probeList : List String := ["bato.si", "bato.ing"] ++ BATO_DOMAINS

def titleOf (p : Page) : String := p.title.getD "Chapter"

/-- One loop iteration of `get_chapter_info` at a candidate domain: the
chapter URL is rewritten to the candidate, the page is fetched (`none`
models a network error / exception), a non-200 status or an empty
extraction fails the candidate, and otherwise a manifest tagged with the
candidate is produced with every image URL passed through
`rewrite_image_url`. -/
def tryDomain (fetch : String → Option (Nat × Page)) (chapter_url d : String) :
    Option ChapterManifest :=
  match fetch (rewrite_chapter_url chapter_url d) with
  | none => none
  | some (status, page) =>
    if status ≠ 200 then none
    else
      match extract_images_multi_strategy page.scripts with
      | [] => none
      | u :: us => some ⟨titleOf page, (u :: us).map rewrite_image_url, d⟩

def resolveLoop (fetch : String → Option (Nat × Page)) (chapter_url : String) :
    List String → Option ChapterManifest
  | [] => none
  | d :: rest =>
    match tryDomain fetch chapter_url d with
    | some m => some m
    | none => resolveLoop fetch chapter_url rest

/-- Source lines 103–137. -/
def get_chapter_info (fetch : String → Option (Nat × Page)) (chapter_url : String) :
    Option ChapterManifest :=
  resolveLoop fetch chapter_url probeList

/-- `get_chapter_info` with the list of URLs actually requested over the
network (one request per candidate tried, in order, stopping at the
first success). -/
def resolveLoopT (fetch : String → Option (Nat × Page)) (chapter_url : String) :
    List String → Option ChapterManifest × List String
  | [] => (none, [])
  | d :: rest =>
    match tryDomain fetch chapter_url d with
    | some m => (some m, [rewrite_chapter_url chapter_url d])
    | none =>
      let r := resolveLoopT fetch chapter_url rest
      (r.1, rewrite_chapter_url chapter_url d :: r.2)

def get_chapter_info_traced (fetch : String → Option (Nat × Page))
    (chapter_url : String) : Option ChapterManifest × List String :=
  resolveLoopT fetch chapter_url probeList

/-! ## Single / bulk entry validation (source lines 305–313, 507–513) -/

inductive SingleOutcome where
  | invalidUrl
  | fetchFailed
  | resolved (m : ChapterManifest)
deriving DecidableEq

/-- The resolution-relevant head of `process_single_download` (source
lines 507–522): a URL without a known mirror-domain substring is
rejected with an error before `get_chapter_info` is ever called; the
second component is the list of network requests issued. -/
def process_single_download (fetch : String → Option (Nat × Page))
    (chapter_url : String) : SingleOutcome × List String :=
  if !(BATO_DOMAINS.any (fun d => containsDomain chapter_url d)) then
    (SingleOutcome.invalidUrl, [])
  else
    match get_chapter_info_traced fetch chapter_url with
    | (none, t) => (SingleOutcome.fetchFailed, t)
    | (some m, t) => (SingleOutcome.resolved m, t)

/-- Source lines 305–313: split the pasted text into lines, strip each,
and keep the non-empty lines containing a known mirror-domain substring. -/
def parse_urls (text : String) : List String :=
  let lines := splitNlAux [] (pyStrip text.data)
  ((lines.map pyStrip).filter
    (fun l => !l.isEmpty && BATO_DOMAINS.any (fun d => listSub d.data l))).map
    (fun l => (⟨l⟩ : String))

/-! ## Assembly engine (source lines 149–303) -/

/-- A PIL image as far as the assembly engine observes it. -/
structure PILImage where
  width : Nat
  height : Nat
  mode : String
deriving DecidableEq, Inhabited

/-- Colour normalisation of both assembly modes (source lines 182–189,
229–236): images with transparency or a palette are composited onto a
white background, everything else is converted to RGB; the pixel size is
unchanged. -/
def to_rgb (img : PILImage) : PILImage :=
  if img.mode == "RGBA" || img.mode == "LA" || img.mode == "P" then
    ⟨img.width, img.height, "RGB"⟩
  else if !(img.mode == "RGB") then ⟨img.width, img.height, "RGB"⟩
  else img

def IMAGE_FILE_EXTS : List String := [".png", ".jpg", ".jpeg", ".webp", ".gif"]

/-- Source lines 152–154: `fname.lower().endswith((...))`. -/
def hasImageExt (fname : String) : Bool :=
  IMAGE_FILE_EXTS.any (fun e => e.data.isSuffixOf (lowerCh fname.data))

/-- Value of a digit run, Python `int(text)`. -/
def natDigitsVal (ds : List Char) : Nat :=
  ds.foldl (fun n c => n * 10 + (c.toNat - 48)) 0

/-- Fuel-driven `re.split(r'(\d+)', filename)` with the per-piece
`int(...)` / `.lower()` of `natural_sort_key`: alternating text pieces
(lowered, possibly empty) and digit runs (as numbers), starting and
ending with a text piece. -/
def natSplitKeyF : Nat → List Char → List (String ⊕ Nat)
  | 0, _ => []
  | fuel+1, cs =>
    let t := cs.takeWhile (fun c => !(c.isDigit))
    let rest := cs.dropWhile (fun c => !(c.isDigit))
    Sum.inl (⟨lowerCh t⟩ : String) ::
      (match rest with
       | [] => []
       | _ =>
         Sum.inr (natDigitsVal (rest.takeWhile Char.isDigit)) ::
           natSplitKeyF fuel (rest.dropWhile Char.isDigit))

/-- Source lines 58–60. -/
def natural_sort_key (fname : String) : List (String ⊕ Nat) :=
  natSplitKeyF (fname.data.length + 1) fname.data

/-- Strict lexicographic comparison of character lists by code point
(Python string `<`). -/
def strLtCh : List Char → List Char → Bool
  | _, [] => false
  | [], _ :: _ => true
  | a :: as, b :: bs => decide (a < b) || (a == b && strLtCh as bs)

/-- Python `<` on sort-key elements.  A string and a number are never
compared by `natural_sort_key` keys (text pieces sit at even positions,
digit runs at odd positions, in every key), so the mixed cases are given
the fixed, unobserved value "string before number". -/
def elemLt : (String ⊕ Nat) → (String ⊕ Nat) → Bool
  | Sum.inl s, Sum.inl t => strLtCh s.data t.data
  | Sum.inr m, Sum.inr n => decide (m < n)
  | Sum.inl _, Sum.inr _ => true
  | Sum.inr _, Sum.inl _ => false

/-- Python `<` on lists (generic lexicographic lift). -/
def lexLt (ltE : α → α → Bool) [DecidableEq α] : List α → List α → Bool
  | _, [] => false
  | [], _ :: _ => true
  | a :: as, b :: bs => ltE a b || (decide (a = b) && lexLt ltE as bs)

/-- The sort key order used on filenames: `a ≤ b` iff not `key b < key a`. -/
def natKeyLe (a b : String) : Bool :=
  !(lexLt elemLt (natural_sort_key b) (natural_sort_key a))

/-- Stable insertion: the new element goes after every element already
placed that is `≤` it, as in Python's stable `list.sort`. -/
def insertLe (le : α → α → Bool) (a : α) : List α → List α
  | [] => [a]
  | b :: l => if le b a then b :: insertLe le a l else a :: b :: l

/-- Model of Python's stable `list.sort` with a key (any stable sort by
a total preorder produces the same list). -/
def pySorted (le : α → α → Bool) (l : List α) : List α :=
  l.foldl (fun acc a => insertLe le a acc) []

/-- The staged directory listing: filename plus the image it opens to
(`none` models a file `Image.open` fails on). -/
abbrev StagedFile := String × Option PILImage

def fileLe (a b : StagedFile) : Bool := natKeyLe a.1 b.1

/-- Skip-mode conversion of one staged file (source lines 179–192): a
file that fails to open is skipped, the rest are normalised to RGB. -/
def skipConv (f : StagedFile) : Option PILImage := f.2.map to_rgb

/-- Skip mode processes the sorted files in batches of 50 (source lines
168–192); the batches exist only for progress reporting. -/
def skipBatchedF : Nat → List StagedFile → List PILImage
  | 0, _ => []
  | _, [] => []
  | fuel+1, files => ((files.take 50).filterMap skipConv) ++ skipBatchedF fuel (files.drop 50)

def skipBatched (files : List StagedFile) : List PILImage :=
  skipBatchedF files.length files

/-- The running-minimum update of stitch-mode pass 1 (source lines
226–227). -/
def updMin (mw : Option Nat) (w : Nat) : Option Nat :=
  match mw with
  | none => some w
  | some m => if w < m then some w else some m

/-- `img.resize((min_width, int(img.height * min_width / img.width)))`
with the float ratio modelled by rational floor; only the width is
relied upon by the theorems below. -/
def resizeTo (img : PILImage) (m : Nat) : PILImage :=
  ⟨m, img.height * m / img.width, img.mode⟩

/-- Stitch-mode per-image processing after the minimum update (source
lines 229–241): normalise to RGB, then downscale to the *running*
minimum width when the width differs (`if min_width and img.width !=
min_width`, so a zero minimum disables the resize). -/
def loadOne (mw : Option Nat) (img : PILImage) : PILImage :=
  let img1 := to_rgb img
  match mw with
  | some m => if !(m == 0) && !(img1.width == m) then resizeTo img1 m else img1
  | none => img1

/-- Stitch-mode pass 1 (source lines 216–245): walk the staged images in
order, skip load failures, update the running minimum width, and
normalise/resize each image against the minimum *as known at its turn*;
returns the final minimum width and the processed images in order. -/
def loadPass : Option Nat → List (Option PILImage) → Option Nat × List PILImage
  | mw, [] => (mw, [])
  | mw, none :: rest => loadPass mw rest
  | mw, some img :: rest =>
    let mw' := updMin mw img.width
    let out := loadOne mw' img
    let r := loadPass mw' rest
    (r.1, out :: r.2)

/-- Stitch-mode pass 2, the chunking walk (source lines 253–267):
`current_height + img.height > chunk_height and current_chunk` closes
the chunk. -/
def chunkLoop (H : Nat) : List PILImage → List PILImage → Nat → List (List PILImage)
  | [], cur, _ => if cur.isEmpty then [] else [cur]
  | img :: rest, cur, ch =>
    if H < ch + img.height && !cur.isEmpty then
      cur :: chunkLoop H rest [img] img.height
    else
      chunkLoop H rest (cur ++ [img]) (ch + img.height)

def chunkImages (H : Nat) (imgs : List PILImage) : List (List PILImage) :=
  chunkLoop H imgs [] 0

def chunkHeight (c : List PILImage) : Nat := (c.map PILImage.height).sum

/-- Source lines 278–286: the stitched canvas of a chunk has the final
minimum width and the sum of the member heights. -/
def stitchChunk (min_width : Nat) (c : List PILImage) : PILImage :=
  ⟨min_width, chunkHeight c, "RGB"⟩

/-- Source lines 149–303, with the staged directory as an association of
filenames to the images they open to, and the produced document as its
list of pages (`none` when the function returns `False`). -/
def images_to_pdf_lossless (listing : List StagedFile) (chunk_height : Nat) :
    Option (List PILImage) :=
  let image_files := pySorted fileLe (listing.filter (fun f => hasImageExt f.1))
  if image_files.isEmpty then none
  else if chunk_height == 0 then
    let pages := skipBatched image_files
    if pages.isEmpty then none else some pages
  else
    let r := loadPass none (image_files.map (fun f => f.2))
    if r.2.isEmpty then none
    else some ((chunkImages chunk_height r.2).map (stitchChunk (r.1.getD 0)))

/-! ## Derived notions used only in theorem statements -/

/-- Running prefix minima continued from `m`. -/
def pmAux (m : Nat) : List Nat → List Nat
  | [] => []
  | w :: ws => min m w :: pmAux (min m w) ws

/-- The sequence of prefix minima of a width list. -/
def prefixMins : List Nat → List Nat
  | [] => []
  | w :: ws => w :: pmAux w ws

/-- Whether a candidate domain succeeds for a given fetch function. -/
def domainSucceeds (fetch : String → Option (Nat × Page)) (chapter_url d : String) :
    Bool :=
  (tryDomain fetch chapter_url d).isSome

/-- A URL of the shape `X.gif` or `X.gif?query` (the claim's
"ends in '.gif', optionally with a query string"), case-insensitively. -/
def endsGifQ (cs : List Char) : Bool :=
  ".gif".data.isSuffixOf (lowerCh cs) || listSub ".gif?".data (lowerCh cs)

/-! ## Concrete fixtures for counterexamples and witnesses -/

/-- A script body matched by the marker-token strategy only. -/
def scrMarker : String := "batoPass = load(\"https://a.com/1.jpg\");"

/-- A script body carrying a parseable structured-array assignment. -/
def scrArray : String := "const imgHttps = [\"https://b.com/2.jpg\"];"

/-- A page where a marker-token script precedes a structured-array script. -/
def pageMixed : List (Option String) := [some scrMarker, some scrArray]

/-- A script with only two distinct plain image URLs and no markers. -/
def scrTwoUrls : String := "cfg https://a.com/p.jpg and https://b.com/q.png end"

/-- A fetch function for which only the candidate domain `dto.to`
produces a page with extractable images. -/
def fetch4 : String → Option (Nat × Page) := fun u =>
  if u == "https://dto.to/ch/5" then some (200, ⟨[some scrMarker], some "Title"⟩)
  else none

/-- A fetch function whose page yields a CDN-prefixed `.gif` image URL. -/
def fetchGif : String → Option (Nat × Page) := fun u =>
  if u == "https://bato.si/g" then
    some (200, ⟨[some "batoPass \"https://kx.gif\""], some "G"⟩)
  else none

/-- A fetch function that always fails (network error on every URL). -/
def fetchNone : String → Option (Nat × Page) := fun _ => none

/-! ## Helper lemmas: lexicographic orders and stable insertion sort -/

theorem lexLt_trans {α : Type} (ltE : α → α → Bool) [DecidableEq α]
    (htr : ∀ a b c, ltE a b = true → ltE b c = true → ltE a c = true) :
    ∀ l1 l2 l3 : List α, lexLt ltE l1 l2 = true → lexLt ltE l2 l3 = true →
      lexLt ltE l1 l3 = true := by
  intro l1
  induction l1 with
  | nil =>
    intro l2 l3 h12 h23
    cases l3 with
    | nil => cases l2 with
      | nil => simp [lexLt] at h12
      | cons b bs => simp [lexLt] at h23
    | cons c cs => simp [lexLt]
  | cons a as ih =>
    intro l2 l3 h12 h23
    cases l2 with
    | nil => simp [lexLt] at h12
    | cons b bs =>
      cases l3 with
      | nil => simp [lexLt] at h23
      | cons c cs =>
        simp only [lexLt, Bool.or_eq_true, Bool.and_eq_true, decide_eq_true_eq] at h12 h23 ⊢
        rcases h12 with hab | ⟨hab, h12'⟩
        · rcases h23 with hbc | ⟨hbc, h23'⟩
          · exact Or.inl (htr a b c hab hbc)
          · exact Or.inl (hbc ▸ hab)
        · rcases h23 with hbc | ⟨hbc, h23'⟩
          · exact Or.inl (hab ▸ hbc)
          · exact Or.inr ⟨hab.trans hbc, ih bs cs h12' h23'⟩

theorem lexLt_asymm {α : Type} (ltE : α → α → Bool) [DecidableEq α]
    (hasym : ∀ a b, ltE a b = true → ltE b a = false) :
    ∀ l1 l2 : List α, lexLt ltE l1 l2 = true → lexLt ltE l2 l1 = false := by
  intro l1
  induction l1 with
  | nil =>
    intro l2 h
    cases l2 with
    | nil => simp [lexLt] at h
    | cons b bs => simp [lexLt]
  | cons a as ih =>
    intro l2 h
    cases l2 with
    | nil => simp [lexLt] at h
    | cons b bs =>
      simp only [lexLt, Bool.or_eq_true, Bool.and_eq_true, decide_eq_true_eq] at h
      simp only [lexLt, Bool.or_eq_false_iff, Bool.and_eq_false_iff]
      rcases h with hab | ⟨hab, h'⟩
      · constructor
        · exact hasym a b hab
        · left
          simp only [decide_eq_false_iff_not]
          intro hba
          rw [hba] at hab
          have := hasym a a hab
          rw [this] at hab
          exact Bool.false_ne_true hab
      · subst hab
        refine ⟨?_, Or.inr (ih bs h')⟩
        by_cases haa : ltE a a = true
        · exact hasym a a haa
        · exact Bool.not_eq_true _ |>.mp haa

theorem lexLt_connex {α : Type} (ltE : α → α → Bool) [DecidableEq α]
    (hconn : ∀ a b, ltE a b = false → ltE b a = false → a = b) :
    ∀ l1 l2 : List α, lexLt ltE l1 l2 = false → lexLt ltE l2 l1 = false → l1 = l2 := by
  intro l1
  induction l1 with
  | nil =>
    intro l2 h12 h21
    cases l2 with
    | nil => rfl
    | cons b bs => simp [lexLt] at h12
  | cons a as ih =>
    intro l2 h12 h21
    cases l2 with
    | nil => simp [lexLt] at h21
    | cons b bs =>
      simp only [lexLt, Bool.or_eq_false_iff, Bool.and_eq_false_iff] at h12 h21
      obtain ⟨hab, h12'⟩ := h12
      obtain ⟨hba, h21'⟩ := h21
      have heq : a = b := hconn a b hab hba
      subst heq
      rcases h12' with h | h12'
      · simp at h
      · rcases h21' with h | h21'
        · simp at h
        · rw [ih bs h12' h21']

theorem strLtCh_eq_lexLt : ∀ s t : List Char,
    strLtCh s t = lexLt (fun a b => decide (a < b)) s t := by
  intro s
  induction s with
  | nil => intro t; cases t <;> simp [strLtCh, lexLt]
  | cons a as ih =>
    intro t
    cases t with
    | nil => simp [strLtCh, lexLt]
    | cons b bs =>
      simp only [strLtCh, lexLt, ih bs]
      have hbe : (a == b) = decide (a = b) := by
        by_cases h : a = b
        · simp [h]
        · simp [h]
      rw [hbe]

theorem charLt_trans : ∀ a b c : Char, decide (a < b) = true → decide (b < c) = true →
    decide (a < c) = true := by
  intro a b c h1 h2
  simp only [decide_eq_true_eq] at *
  exact lt_trans h1 h2

theorem charLt_asymm : ∀ a b : Char, decide (a < b) = true → decide (b < a) = false := by
  intro a b h
  simp only [decide_eq_true_eq, decide_eq_false_iff_not] at *
  exact lt_asymm h

theorem charLt_connex : ∀ a b : Char, decide (a < b) = false → decide (b < a) = false →
    a = b := by
  intro a b h1 h2
  simp only [decide_eq_false_iff_not] at *
  exact le_antisymm (le_of_not_lt h2) (le_of_not_lt h1)

theorem strLtCh_trans : ∀ s t u : List Char,
    strLtCh s t = true → strLtCh t u = true → strLtCh s u = true := by
  intro s t u h1 h2
  rw [strLtCh_eq_lexLt] at *
  exact lexLt_trans _ charLt_trans s t u h1 h2

theorem strLtCh_asymm : ∀ s t : List Char, strLtCh s t = true → strLtCh t s = false := by
  intro s t h
  rw [strLtCh_eq_lexLt] at *
  exact lexLt_asymm _ charLt_asymm s t h

theorem strLtCh_connex : ∀ s t : List Char, strLtCh s t = false → strLtCh t s = false →
    s = t := by
  intro s t h1 h2
  rw [strLtCh_eq_lexLt] at *
  exact lexLt_connex _ charLt_connex s t h1 h2

theorem elemLt_trans : ∀ a b c : String ⊕ Nat,
    elemLt a b = true → elemLt b c = true → elemLt a c = true := by
  intro a b c h1 h2
  cases a <;> cases b <;> cases c <;> simp [elemLt] at *
  · exact strLtCh_trans _ _ _ h1 h2
  · omega

theorem elemLt_asymm : ∀ a b : String ⊕ Nat, elemLt a b = true → elemLt b a = false := by
  intro a b h
  cases a <;> cases b <;> simp [elemLt] at *
  · exact strLtCh_asymm _ _ h
  · omega

theorem elemLt_connex : ∀ a b : String ⊕ Nat, elemLt a b = false → elemLt b a = false →
    a = b := by
  intro a b h1 h2
  cases a <;> cases b <;> simp [elemLt] at *
  · exact String.ext (strLtCh_connex _ _ h1 h2)
  · omega

theorem natKeyLe_total : ∀ a b : String, natKeyLe a b = true ∨ natKeyLe b a = true := by
  intro a b
  unfold natKeyLe
  by_cases h : lexLt elemLt (natural_sort_key b) (natural_sort_key a) = true
  · right
    have := lexLt_asymm elemLt elemLt_asymm _ _ h
    simp [this]
  · left
    simp [Bool.not_eq_true _ |>.mp h]

theorem natKeyLe_trans : ∀ a b c : String,
    natKeyLe a b = true → natKeyLe b c = true → natKeyLe a c = true := by
  intro a b c h1 h2
  unfold natKeyLe at *
  simp only [Bool.not_eq_true'] at h1 h2 ⊢
  by_contra hca
  have hca' : lexLt elemLt (natural_sort_key c) (natural_sort_key a) = true := by
    revert hca
    cases lexLt elemLt (natural_sort_key c) (natural_sort_key a) <;> simp
  by_cases hbc : lexLt elemLt (natural_sort_key b) (natural_sort_key c) = true
  · have := lexLt_trans elemLt elemLt_trans _ _ _ hbc hca'
    rw [this] at h1
    simp at h1
  · have hbc' := Bool.not_eq_true _ |>.mp hbc
    have heq := lexLt_connex elemLt elemLt_connex _ _ hbc' h2
    rw [← heq] at hca'
    rw [hca'] at h1
    simp at h1

theorem fileLe_total : ∀ a b : StagedFile, fileLe a b = true ∨ fileLe b a = true := by
  intro a b
  exact natKeyLe_total a.1 b.1

theorem fileLe_trans : ∀ a b c : StagedFile,
    fileLe a b = true → fileLe b c = true → fileLe a c = true := by
  intro a b c h1 h2
  exact natKeyLe_trans a.1 b.1 c.1 h1 h2

theorem insertLe_perm {α : Type} (le : α → α → Bool) (a : α) :
    ∀ l : List α, (insertLe le a l).Perm (a :: l) := by
  intro l
  induction l with
  | nil => simp [insertLe]
  | cons b t ih =>
    simp only [insertLe]
    by_cases h : le b a = true
    · rw [if_pos h]
      exact (ih.cons b).trans (List.Perm.swap a b t)
    · rw [if_neg h]

theorem pySorted_go_perm {α : Type} (le : α → α → Bool) :
    ∀ (l acc : List α), (l.foldl (fun acc a => insertLe le a acc) acc).Perm (l ++ acc) := by
  intro l
  induction l with
  | nil => intro acc; simp
  | cons a t ih =>
    intro acc
    simp only [List.foldl_cons, List.cons_append]
    refine (ih (insertLe le a acc)).trans ?_
    refine (List.Perm.append_left t (insertLe_perm le a acc)).trans ?_
    exact List.perm_middle

theorem pySorted_perm {α : Type} (le : α → α → Bool) (l : List α) :
    (pySorted le l).Perm l := by
  unfold pySorted
  simpa using pySorted_go_perm le l []

theorem insertLe_sorted {α : Type} (le : α → α → Bool)
    (htot : ∀ a b, le a b = true ∨ le b a = true)
    (htr : ∀ a b c, le a b = true → le b c = true → le a c = true) (a : α) :
    ∀ l : List α, l.Sorted (fun x y => le x y = true) →
      (insertLe le a l).Sorted (fun x y => le x y = true) := by
  intro l
  induction l with
  | nil => intro _; simp [insertLe]
  | cons b t ih =>
    intro hs
    rw [List.sorted_cons] at hs
    obtain ⟨hb, ht⟩ := hs
    simp only [insertLe]
    by_cases h : le b a = true
    · rw [if_pos h]
      rw [List.sorted_cons]
      constructor
      · intro x hx
        have := (insertLe_perm le a t).mem_iff.mp hx
        rcases List.mem_cons.mp this with rfl | hxt
        · exact h
        · exact hb x hxt
      · exact ih ht
    · rw [if_neg h]
      rw [List.sorted_cons]
      constructor
      · intro x hx
        rcases List.mem_cons.mp hx with rfl | hxt
        · rcases htot a x with hax | hxa
          · exact hax
          · exact absurd hxa h
        · rcases htot a b with hab | hba
          · exact htr a b x hab (hb x hxt)
          · exact absurd hba h
      · exact List.sorted_cons.mpr ⟨hb, ht⟩

theorem pySorted_go_sorted {α : Type} (le : α → α → Bool)
    (htot : ∀ a b, le a b = true ∨ le b a = true)
    (htr : ∀ a b c, le a b = true → le b c = true → le a c = true) :
    ∀ (l acc : List α), acc.Sorted (fun x y => le x y = true) →
      (l.foldl (fun acc a => insertLe le a acc) acc).Sorted (fun x y => le x y = true) := by
  intro l
  induction l with
  | nil => intro acc h; simpa using h
  | cons a t ih =>
    intro acc h
    simp only [List.foldl_cons]
    exact ih _ (insertLe_sorted le htot htr a acc h)

theorem pySorted_sorted {α : Type} (le : α → α → Bool)
    (htot : ∀ a b, le a b = true ∨ le b a = true)
    (htr : ∀ a b c, le a b = true → le b c = true → le a c = true) (l : List α) :
    (pySorted le l).Sorted (fun x y => le x y = true) := by
  unfold pySorted
  exact pySorted_go_sorted le htot htr l [] (by simp)

/-! ## Helper lemmas: deduplication -/

theorem mem_pyDedupAux : ∀ (l seen : List String) (a : String),
    a ∈ pyDedupAux seen l ↔ (a ∈ l ∧ a ∉ seen) := by
  intro l
  induction l with
  | nil => intro seen a; simp [pyDedupAux]
  | cons b t ih =>
    intro seen a
    simp only [pyDedupAux]
    by_cases hb : seen.contains b = true
    · rw [if_pos hb]
      rw [ih]
      have hbmem : b ∈ seen := by simpa using hb
      constructor
      · rintro ⟨h1, h2⟩
        exact ⟨List.mem_cons_of_mem b h1, h2⟩
      · rintro ⟨h1, h2⟩
        rcases List.mem_cons.mp h1 with rfl | h1
        · exact absurd hbmem h2
        · exact ⟨h1, h2⟩
    · rw [if_neg hb]
      have hbmem : b ∉ seen := by simpa using hb
      constructor
      · intro h
        rcases List.mem_cons.mp h with rfl | h
        · exact ⟨List.mem_cons_self _ _, hbmem⟩
        · have := (ih (b :: seen) a).mp h
          refine ⟨List.mem_cons_of_mem b this.1, ?_⟩
          intro hmem
          exact this.2 (List.mem_cons_of_mem b hmem)
      · rintro ⟨h1, h2⟩
        rcases List.mem_cons.mp h1 with rfl | h1
        · exact List.mem_cons_self _ _
        · by_cases hab : a = b
          · subst hab; exact List.mem_cons_self _ _
          · refine List.mem_cons_of_mem b ((ih (b :: seen) a).mpr ⟨h1, ?_⟩)
            intro hmem
            rcases List.mem_cons.mp hmem with h | h
            · exact hab h
            · exact h2 h

theorem nodup_pyDedupAux : ∀ (l seen : List String), (pyDedupAux seen l).Nodup := by
  intro l
  induction l with
  | nil => intro seen; simp [pyDedupAux]
  | cons b t ih =>
    intro seen
    simp only [pyDedupAux]
    by_cases hb : seen.contains b = true
    · rw [if_pos hb]; exact ih seen
    · rw [if_neg hb]
      refine List.nodup_cons.mpr ⟨?_, ih (b :: seen)⟩
      intro hmem
      have := (mem_pyDedupAux t (b :: seen) b).mp hmem
      exact this.2 (List.mem_cons_self _ _)

theorem pyDedup_nodup (l : List String) : (pyDedup l).Nodup := nodup_pyDedupAux l []

theorem mem_pyDedup (l : List String) (a : String) : a ∈ pyDedup l ↔ a ∈ l := by
  unfold pyDedup
  rw [mem_pyDedupAux]
  simp

theorem pyDedup_length (l : List String) : (pyDedup l).length = l.toFinset.card := by
  have h1 : (pyDedup l).toFinset = l.toFinset := by
    ext a
    simp [List.mem_toFinset, mem_pyDedup]
  rw [← h1, List.toFinset_card_of_nodup (pyDedup_nodup l)]

theorem pyDedup_length_mono {l1 l2 : List String} (h : ∀ a ∈ l1, a ∈ l2) :
    (pyDedup l1).length ≤ (pyDedup l2).length := by
  rw [pyDedup_length, pyDedup_length]
  refine Finset.card_le_card ?_
  intro a ha
  rw [List.mem_toFinset] at *
  exact h a ha

/-! ## Helper lemmas: occurrence counting and replacement -/

theorem occCount_cons_le (pat : List Char) (c : Char) (s : List Char) :
    occCount pat s ≤ occCount pat (c :: s) := by
  simp only [occCount]
  omega

theorem occCount_append_le (pat : List Char) : ∀ (x s : List Char),
    occCount pat s ≤ occCount pat (x ++ s) := by
  intro x
  induction x with
  | nil => intro s; simp
  | cons c t ih =>
    intro s
    calc occCount pat s ≤ occCount pat (t ++ s) := ih s
      _ ≤ occCount pat (c :: (t ++ s)) := occCount_cons_le pat c (t ++ s)

theorem occCount_pos (pat : List Char) (hpat : pat ≠ []) : ∀ (a b : List Char),
    1 ≤ occCount pat (a ++ (pat ++ b)) := by
  intro a
  induction a with
  | nil =>
    intro b
    obtain ⟨p, pt, rfl⟩ : ∃ p pt, pat = p :: pt := by
      cases pat with
      | nil => exact absurd rfl hpat
      | cons p pt => exact ⟨p, pt, rfl⟩
    have hpre : (p :: pt).isPrefixOf (p :: (pt ++ b)) = true := by
      rw [List.isPrefixOf_iff_prefix]
      exact List.prefix_append (p :: pt) b
    simp only [List.nil_append, List.cons_append, occCount, hpre]
    simp
  | cons c t ih =>
    intro b
    calc 1 ≤ occCount pat (t ++ (pat ++ b)) := ih b
      _ ≤ occCount pat (c :: (t ++ (pat ++ b))) := occCount_cons_le pat c _
      _ = occCount pat ((c :: t) ++ (pat ++ b)) := by simp

theorem occCount_zero_not_pre (pat : List Char) : ∀ s : List Char,
    occCount pat s = 0 → pat.isPrefixOf s = false := by
  intro s h
  cases s with
  | nil =>
    simp only [occCount] at h
    by_cases hp : pat.isPrefixOf ([] : List Char) = true
    · rw [if_pos hp] at h; omega
    · exact Bool.not_eq_true _ |>.mp hp
  | cons c t =>
    simp only [occCount] at h
    by_cases hp : pat.isPrefixOf (c :: t) = true
    · rw [if_pos hp] at h; omega
    · exact Bool.not_eq_true _ |>.mp hp

theorem occCount_zero_tail (pat : List Char) (c : Char) (s : List Char)
    (h : occCount pat (c :: s) = 0) : occCount pat s = 0 := by
  simp only [occCount] at h
  omega

theorem pyReplaceAllF_no_occ (pat rep : List Char) : ∀ (fuel : Nat) (s : List Char),
    occCount pat s = 0 → pyReplaceAllF pat rep fuel s = s := by
  intro fuel
  induction fuel with
  | zero => intro s _; cases s <;> rfl
  | succ f ih =>
    intro s h
    cases s with
    | nil => rfl
    | cons c t =>
      have hp := occCount_zero_not_pre pat (c :: t) h
      simp only [pyReplaceAllF, hp]
      simp only [Bool.false_eq_true, if_false]
      rw [ih t (occCount_zero_tail pat c t h)]

theorem pyReplaceAllF_single (pat rep : List Char) (hpat : pat ≠ []) :
    ∀ (a : List Char) (fuel : Nat) (b : List Char),
    (a ++ (pat ++ b)).length ≤ fuel →
    occCount pat (a ++ (pat ++ b)) = 1 →
    pyReplaceAllF pat rep fuel (a ++ (pat ++ b)) = a ++ (rep ++ b) := by
  intro a
  induction a with
  | nil =>
    intro fuel b hlen hocc
    obtain ⟨p, pt, rfl⟩ : ∃ p pt, pat = p :: pt := by
      cases pat with
      | nil => exact absurd rfl hpat
      | cons p pt => exact ⟨p, pt, rfl⟩
    simp only [List.nil_append] at *
    cases fuel with
    | zero => simp at hlen
    | succ f =>
      have hpre : (p :: pt).isPrefixOf ((p :: pt) ++ b) = true := by
        rw [List.isPrefixOf_iff_prefix]
        exact List.prefix_append (p :: pt) b
      rw [List.cons_append] at *
      simp only [pyReplaceAllF, hpre, if_pos]
      have hdrop : (p :: (pt ++ b)).drop (p :: pt).length = b := by
        rw [← List.cons_append]
        exact List.drop_left (p :: pt) b
      rw [hdrop]
      have hocc0 : occCount (p :: pt) b = 0 := by
        simp only [occCount, hpre, if_pos] at hocc
        have h1 : occCount (p :: pt) (pt ++ b) = 0 := by omega
        have h2 := occCount_append_le (p :: pt) pt b
        omega
      rw [pyReplaceAllF_no_occ (p :: pt) rep f b hocc0]
  | cons c t ih =>
    intro fuel b hlen hocc
    cases fuel with
    | zero => simp at hlen
    | succ f =>
      rw [List.cons_append] at *
      have hnp : pat.isPrefixOf (c :: (t ++ (pat ++ b))) = false := by
        by_contra hx
        have hx' : pat.isPrefixOf (c :: (t ++ (pat ++ b))) = true := by
          revert hx; cases pat.isPrefixOf (c :: (t ++ (pat ++ b))) <;> simp
        simp only [occCount, hx', if_pos] at hocc
        have := occCount_pos pat hpat t b
        omega
      simp only [pyReplaceAllF, hnp]
      simp only [Bool.false_eq_true, if_false]
      have hocc1 : occCount pat (t ++ (pat ++ b)) = 1 := by
        simp only [occCount, hnp] at hocc
        simp only [Bool.false_eq_true, if_false] at hocc
        omega
      have hlen1 : (t ++ (pat ++ b)).length ≤ f := by
        simp only [List.length_cons] at hlen
        omega
      rw [ih f b hlen1 hocc1]
      rfl

theorem pyReplaceFirstF_no_occ (pat rep : List Char) : ∀ (fuel : Nat) (s : List Char),
    occCount pat s = 0 → pyReplaceFirstF pat rep fuel s = s := by
  intro fuel
  induction fuel with
  | zero => intro s _; cases s <;> rfl
  | succ f ih =>
    intro s h
    cases s with
    | nil => rfl
    | cons c t =>
      have hp := occCount_zero_not_pre pat (c :: t) h
      simp only [pyReplaceFirstF, hp]
      simp only [Bool.false_eq_true, if_false]
      rw [ih t (occCount_zero_tail pat c t h)]

theorem pyReplaceFirst_head (pat rep s : List Char) (hpat : pat ≠ [])
    (hpre : pat.isPrefixOf s = true) :
    pyReplaceFirst s pat rep = rep ++ s.drop pat.length := by
  unfold pyReplaceFirst
  have hne : pat.isEmpty = false := by
    cases pat with
    | nil => exact absurd rfl hpat
    | cons p pt => rfl
  rw [hne]
  simp only [Bool.false_eq_true, if_false]
  cases s with
  | nil =>
    rw [List.isPrefixOf_iff_prefix] at hpre
    have := List.eq_nil_of_prefix_nil hpre
    exact absurd this hpat
  | cons c t =>
    simp only [List.length_cons, pyReplaceFirstF, hpre, if_pos]

theorem pyReplaceAll_single (pat rep a b : List Char) (hpat : pat ≠ [])
    (hocc : occCount pat (a ++ (pat ++ b)) = 1) :
    pyReplaceAll (a ++ (pat ++ b)) pat rep = a ++ (rep ++ b) := by
  unfold pyReplaceAll
  have hne : pat.isEmpty = false := by
    cases pat with
    | nil => exact absurd rfl hpat
    | cons _ _ => rfl
  rw [hne]
  simp only [Bool.false_eq_true, if_false]
  exact pyReplaceAllF_single pat rep hpat a _ b le_rfl hocc

theorem rewrite_image_url_of_not_match (url : String) (h : matchesCdn url = false) :
    rewrite_image_url url = url := by
  unfold rewrite_image_url
  by_cases he : url.data.isEmpty = true
  · rw [if_pos he]
  · rw [if_neg he, if_neg (by rw [h]; simp)]

/-! ## Claim C2 -/

/-- C2 (counterexample): a URL in which the recognized domain substring
`bato.si` occurs twice has *both* occurrences replaced by the chapter-URL
rewrite (Python `str.replace` replaces all occurrences), so the result
is not the URL with exactly one occurrence of the domain replaced. -/
theorem C2_counterexample :
    rewrite_chapter_url "https://bato.si/bato.si" "bato.ing" = "https://bato.ing/bato.ing" ∧
    ("https://bato.ing/bato.ing" : String) ≠ "https://bato.ing/bato.si" ∧
    ("https://bato.ing/bato.ing" : String) ≠ "https://bato.si/bato.ing" := by
  refine ⟨by decide, by decide, by decide⟩

/-- C2 (amended): the chapter-URL rewrite replaces *every* occurrence of
the first recognized mirror-domain substring (in `BATO_DOMAINS` order)
with the target; in particular, when that domain occurs exactly once the
result is the URL with exactly that occurrence replaced and every other
character unchanged; a URL with no known mirror-domain substring is
returned unchanged. -/
theorem C2_amended :
    (∀ url target : String,
      (∀ d ∈ BATO_DOMAINS, containsDomain url d = false) →
      rewrite_chapter_url url target = url) ∧
    (∀ (url target d : String) (a b : List Char),
      BATO_DOMAINS.find? (fun x => containsDomain url x) = some d →
      url.data = a ++ (d.data ++ b) →
      occCount d.data url.data = 1 →
      (rewrite_chapter_url url target).data = a ++ (target.data ++ b)) := by
  constructor
  · intro url target h
    unfold rewrite_chapter_url
    have hf : BATO_DOMAINS.find? (fun d => containsDomain url d) = none := by
      rw [List.find?_eq_none]
      intro x hx
      rw [h x hx]
      simp
    rw [hf]
  · intro url target d a b hfind hdecomp hocc
    unfold rewrite_chapter_url
    rw [hfind]
    have hdne : d.data ≠ [] := by
      have hd := List.mem_of_find?_eq_some hfind
      have hall : ∀ x ∈ BATO_DOMAINS, x.data ≠ [] := by decide
      exact hall d hd
    show pyReplaceAll url.data d.data target.data = a ++ (target.data ++ b)
    rw [hdecomp] at hocc ⊢
    exact pyReplaceAll_single d.data target.data a b hdne hocc

/-- C2 (witness): the chapter URL `https://dto.to/chap-9` contains the
domain `dto.to` exactly once, and the rewrite to `bato.bz` replaces
exactly that occurrence. -/
theorem C2_witness :
    (rewrite_chapter_url "https://dto.to/chap-9" "bato.bz").data =
      "https://".data ++ ("bato.bz".data ++ "/chap-9".data) := by
  have h := C2_amended.2 "https://dto.to/chap-9" "bato.bz" "dto.to"
    "https://".data "/chap-9".data (by decide) (by decide) (by decide)
  exact h

/-! ## Claim C8 -/

/-- C8 (counterexample): `HTTPS://Ka.png` matches the CDN-prefix pattern
(matching is case-insensitive), yet `rewrite_image_url` returns it
unchanged — the case-sensitive `str.replace` finds no occurrence of the
lowercase prefix — so it is not the input with the first occurrence of
the CDN prefix replaced by the alternate prefix. -/
theorem C8_counterexample :
    matchesCdn "HTTPS://Ka.png" = true ∧
    rewrite_image_url "HTTPS://Ka.png" = "HTTPS://Ka.png" ∧
    ("HTTPS://Ka.png" : String) ≠ "https://na.png" := by
  refine ⟨by decide, by decide, by decide⟩

/-- C8 (amended): a URL that does not match the CDN pattern is returned
unchanged (so the rewrite is idempotent there); a matching URL that
literally starts with `https://k` has exactly that leading prefix
replaced by `https://n` with the rest unchanged; a matching URL with no
literal occurrence of `https://k` (the match being case-insensitive) is
returned unchanged. -/
theorem C8_amended :
    (∀ url : String, matchesCdn url = false →
      rewrite_image_url url = url ∧
      rewrite_image_url (rewrite_image_url url) = rewrite_image_url url) ∧
    (∀ url : String, matchesCdn url = true →
      "https://k".data.isPrefixOf url.data = true →
      rewrite_image_url url = ⟨"https://n".data ++ url.data.drop 9⟩) ∧
    (∀ url : String, matchesCdn url = true →
      occCount "https://k".data url.data = 0 →
      rewrite_image_url url = url) := by
  refine ⟨?_, ?_, ?_⟩
  · intro url h
    have h1 := rewrite_image_url_of_not_match url h
    exact ⟨h1, by rw [h1, h1]⟩
  · intro url hm hpre
    have hne : url.data.isEmpty = false := by
      cases hd : url.data with
      | nil =>
        rw [hd] at hpre
        rw [List.isPrefixOf_iff_prefix] at hpre
        have := List.eq_nil_of_prefix_nil hpre
        simp at this
      | cons _ _ => rfl
    unfold rewrite_image_url
    rw [if_neg (by rw [hne]; simp), if_pos hm]
    have hh := pyReplaceFirst_head "https://k".data "https://n".data url.data
      (by decide) hpre
    show (⟨pyReplaceFirst url.data "https://k".data "https://n".data⟩ : String) = _
    rw [hh]
    have h9 : "https://k".data.length = 9 := by decide
    rw [h9]
  · intro url hm hocc
    unfold rewrite_image_url
    by_cases he : url.data.isEmpty = true
    · rw [if_pos he]
    · rw [if_neg he, if_pos hm]
      have h1 : pyReplaceFirst url.data "https://k".data "https://n".data = url.data := by
        unfold pyReplaceFirst
        rw [if_neg (by decide)]
        exact pyReplaceFirstF_no_occ _ _ _ _ hocc
      rw [h1]

/-- C8 (witness): `https://ka.png` matches and starts with the literal
prefix, and the rewrite yields `https://na.png`; `http://x.png` does not
match and is a fixed point. -/
theorem C8_witness :
    rewrite_image_url "https://ka.png" = "https://na.png" ∧
    rewrite_image_url "http://x.png" = "http://x.png" := by
  constructor
  · have h := C8_amended.2.1 "https://ka.png" (by decide) (by decide)
    rw [h]
    decide
  · exact (C8_amended.1 "http://x.png" (by decide)).1

/-! ## Claim C10 -/

/-- C10 (counterexample): `https://ka.gif?x=.png` starts with the CDN
prefix and ends in `.gif` followed by a query string, yet
`rewrite_image_url` does *not* return it unchanged — the `.png` inside
the query makes the whole URL match the CDN pattern and the prefix is
rewritten. -/
theorem C10_counterexample :
    "https://k".data.isPrefixOf "https://ka.gif?x=.png".data = true ∧
    endsGifQ "https://ka.gif?x=.png".data = true ∧
    rewrite_image_url "https://ka.gif?x=.png" = "https://na.gif?x=.png" ∧
    ("https://na.gif?x=.png" : String) ≠ "https://ka.gif?x=.png" := by
  refine ⟨by decide, by decide, by decide, by decide⟩

/-- C10 (amended): a URL that starts with the CDN prefix and ends in
`.gif` (optionally with a query string) is returned unchanged by
`rewrite_image_url` provided no other recognized extension
(`.png`/`.jpg`/`.jpeg`/`.webp`) occurs in it at an end-or-query
position; and indeed the extractor recognises `.gif` URLs, so a
resolved manifest can contain a CDN image URL to which the corrective
prefix rewrite was never applied. -/
theorem C10_amended :
    (∀ url : String,
      "https://k".data.isPrefixOf url.data = true →
      endsGifQ url.data = true →
      hasCdnExtAt (lowerCh (stripOneNl url.data)) = false →
      rewrite_image_url url = url) ∧
    get_chapter_info fetchGif "https://bato.si/g" =
      some ⟨"G", ["https://kx.gif"], "bato.si"⟩ ∧
    rewrite_image_url "https://kx.gif" = "https://kx.gif" := by
  refine ⟨?_, by decide, by decide⟩
  intro url hpre hgif hno
  have hm : matchesCdn url = false := by
    unfold matchesCdn
    simp only [hno, Bool.and_false]
  exact rewrite_image_url_of_not_match url hm

/-- C10 (witness): the plain CDN gif URL `https://kx.gif` satisfies all
three hypotheses and is a fixed point of the rewrite. -/
theorem C10_witness :
    rewrite_image_url "https://kx.gif" = "https://kx.gif" :=
  C10_amended.1 "https://kx.gif" (by decide) (by decide) (by decide)

/-! ## Claim C9 -/

/-- C9: a chapter URL with no recognized mirror-domain substring is
rejected before any network request — in single mode the handler reports
an invalid URL and issues no request, and in bulk mode every line kept
by the URL parser contains a recognized mirror-domain substring (all
others are filtered out). -/
theorem C9_reject_before_network :
    (∀ (fetch : String → Option (Nat × Page)) (url : String),
      (∀ d ∈ BATO_DOMAINS, containsDomain url d = false) →
      process_single_download fetch url = (SingleOutcome.invalidUrl, [])) ∧
    (∀ (text l : String), l ∈ parse_urls text →
      ∃ d ∈ BATO_DOMAINS, listSub d.data l.data = true) := by
  constructor
  · intro fetch url h
    unfold process_single_download
    have hany : BATO_DOMAINS.any (fun d => containsDomain url d) = false := by
      rw [List.any_eq_false]
      intro x hx
      rw [h x hx]
      simp
    rw [hany]
    simp
  · intro text l hl
    unfold parse_urls at hl
    simp only [List.mem_map] at hl
    obtain ⟨cl, hcl, rfl⟩ := hl
    rw [List.mem_filter] at hcl
    have h2 := hcl.2
    simp only [Bool.and_eq_true, List.any_eq_true] at h2
    obtain ⟨-, d, hd, hsub⟩ := h2
    exact ⟨d, hd, hsub⟩

/-- C9 (witness): `https://example.com/x` contains no mirror domain and
is rejected with no network request issued. -/
theorem C9_witness :
    process_single_download fetchNone "https://example.com/x" =
      (SingleOutcome.invalidUrl, []) :=
  C9_reject_before_network.1 fetchNone "https://example.com/x" (by decide)

/-! ## Claim C3 -/

theorem firstLoop_eq_findSome : ∀ scripts : List (Option String),
    firstLoop scripts = scripts.findSome? perScript := by
  intro scripts
  induction scripts with
  | nil => rfl
  | cons os rest ih =>
    rw [List.findSome?_cons]
    show (match perScript os with
          | some u => some u
          | none => firstLoop rest) = _
    cases perScript os with
    | some u => rfl
    | none => simpa using ih

/-- C3 (counterexample): on a page where an earlier script carries
marker-token URLs and a later script carries a parseable
structured-array assignment, the extractor returns the marker-token
result of the earlier script, not the structured-array result — so the
two strategies are not consulted in fixed priority order over the whole
page. -/
theorem C3_counterexample :
    extract_images_multi_strategy pageMixed = ["https://a.com/1.jpg"] ∧
    strat2 scrMarker = some ["https://a.com/1.jpg"] ∧
    strat1 scrArray = some ["https://b.com/2.jpg"] ∧
    (["https://a.com/1.jpg"] : List String) ≠ ["https://b.com/2.jpg"] := by
  refine ⟨by decide, by decide, by decide, by decide⟩

/-- C3 (amended): the structured-array and marker-token strategies are
consulted per script, in page order: the result comes from the first
script at which either strategy fires, with the structured-array
strategy taking priority over the marker-token strategy only within one
script; the fallback broad-scan runs in a separate later pass. -/
theorem C3_amended :
    (∀ scripts : List (Option String), firstLoop scripts = scripts.findSome? perScript) ∧
    (∀ (s : String) (rest : List (Option String)) (u : List String),
      strat1 s = some u → extract_images_multi_strategy (some s :: rest) = u) ∧
    (∀ (scripts : List (Option String)) (u : List String),
      firstLoop scripts = some u → extract_images_multi_strategy scripts = u) := by
  refine ⟨firstLoop_eq_findSome, ?_, ?_⟩
  · intro s rest u h1
    have hp : perScript (some s) = some u := by
      have hps : perScript (some s) = (match strat1 s with
          | some u => some u
          | none => strat2 s) := rfl
      rw [hps, h1]
    unfold extract_images_multi_strategy
    have hf : firstLoop (some s :: rest) = some u := by
      show (match perScript (some s) with
            | some v => some v
            | none => firstLoop rest) = some u
      rw [hp]
    rw [hf]
  · intro scripts u h
    unfold extract_images_multi_strategy
    rw [h]

/-- C3 (witness): for a page consisting of the structured-array script
alone, the extractor returns the parsed array. -/
theorem C3_witness :
    extract_images_multi_strategy [some scrArray] = ["https://b.com/2.jpg"] :=
  C3_amended.2.1 scrArray [] ["https://b.com/2.jpg"] (by decide)

/-! ## Claim C4 -/

theorem tryDomain_some (fetch : String → Option (Nat × Page)) (url d : String)
    (m : ChapterManifest) (h : tryDomain fetch url d = some m) :
    m.domain = d ∧ ∃ status page,
      fetch (rewrite_chapter_url url d) = some (status, page) ∧ status = 200 ∧
      m.title = titleOf page ∧
      m.images = (extract_images_multi_strategy page.scripts).map rewrite_image_url ∧
      m.images ≠ [] := by
  unfold tryDomain at h
  cases hf : fetch (rewrite_chapter_url url d) with
  | none => rw [hf] at h; exact absurd h (by simp)
  | some sp =>
    rw [hf] at h
    obtain ⟨status, page⟩ := sp
    have h2 : (if status ≠ 200 then none
               else
                 match extract_images_multi_strategy page.scripts with
                 | [] => none
                 | u :: us =>
                   some (⟨titleOf page, (u :: us).map rewrite_image_url, d⟩ :
                     ChapterManifest)) = some m := h
    by_cases hs : status ≠ 200
    · rw [if_pos hs] at h2
      exact absurd h2 (by simp)
    · rw [if_neg hs] at h2
      push_neg at hs
      cases he : extract_images_multi_strategy page.scripts with
      | nil => rw [he] at h2; exact absurd h2 (by simp)
      | cons u us =>
        rw [he] at h2
        have hm := Option.some.inj h2
        refine ⟨by rw [← hm], status, page, rfl, hs, by rw [← hm], ?_, ?_⟩
        · rw [← hm, he]
        · rw [← hm]
          simp

theorem resolveLoop_eq_find (fetch : String → Option (Nat × Page)) (url : String) :
    ∀ l : List String, resolveLoop fetch url l =
      (l.find? (domainSucceeds fetch url)).bind (tryDomain fetch url) := by
  intro l
  induction l with
  | nil => rfl
  | cons d rest ih =>
    show (match tryDomain fetch url d with
          | some m => some m
          | none => resolveLoop fetch url rest) = _
    cases ht : tryDomain fetch url d with
    | some m =>
      rw [List.find?_cons_of_pos rest (by unfold domainSucceeds; rw [ht]; rfl)]
      simp [ht]
    | none =>
      rw [List.find?_cons_of_neg rest (by unfold domainSucceeds; rw [ht]; simp)]
      simpa using ih

theorem resolveLoop_none_iff (fetch : String → Option (Nat × Page)) (url : String) :
    ∀ l : List String, resolveLoop fetch url l = none ↔
      ∀ d ∈ l, tryDomain fetch url d = none := by
  intro l
  induction l with
  | nil => simp [resolveLoop]
  | cons d rest ih =>
    show (match tryDomain fetch url d with
          | some m => some m
          | none => resolveLoop fetch url rest) = none ↔ _
    cases ht : tryDomain fetch url d with
    | some m =>
      simp only [List.mem_cons]
      constructor
      · intro h; exact absurd h (by simp)
      · intro h
        have := h d (Or.inl rfl)
        rw [this] at ht
        exact absurd ht (by simp)
    | none =>
      simp only [List.mem_cons]
      rw [ih]
      constructor
      · intro h x hx
        rcases hx with rfl | hx
        · exact ht
        · exact h x hx
      · intro h x hx
        exact h x (Or.inr hx)

theorem resolveLoop_some_split (fetch : String → Option (Nat × Page)) (url : String) :
    ∀ (l : List String) (m : ChapterManifest), resolveLoop fetch url l = some m →
      ∃ pre post, l = pre ++ m.domain :: post ∧
        (∀ d ∈ pre, tryDomain fetch url d = none) ∧
        tryDomain fetch url m.domain = some m := by
  intro l
  induction l with
  | nil => intro m h; exact absurd h (by simp [resolveLoop])
  | cons d rest ih =>
    intro m h
    have h' : (match tryDomain fetch url d with
               | some m' => some m'
               | none => resolveLoop fetch url rest) = some m := h
    cases ht : tryDomain fetch url d with
    | some m' =>
      rw [ht] at h'
      have hm := Option.some.inj h'
      subst hm
      have hd := (tryDomain_some fetch url d m' ht).1
      refine ⟨[], rest, ?_, by simp, ?_⟩
      · rw [hd]
        rfl
      · rw [hd]
        exact ht
    | none =>
      rw [ht] at h'
      obtain ⟨pre, post, hsplit, hpre, hdom⟩ := ih m h'
      refine ⟨d :: pre, post, by rw [hsplit]; rfl, ?_, hdom⟩
      intro x hx
      rcases List.mem_cons.mp hx with rfl | hx
      · exact ht
      · exact hpre x hx

/-- C4: resolution tries the candidate domains of `probeList` (the two
probe domains, then the full mirror list) in order, advancing past any
candidate whose probe fails (network error, non-200 status, or empty
extraction) and never revisiting one; it yields a manifest exactly when
some candidate succeeds, tagged with the first such candidate as its
resolved domain and with every extracted image URL passed through
`rewrite_image_url`; it reports failure, with no partial manifest, iff
every candidate is exhausted; concretely, with a fetch function on
which only the candidate `dto.to` succeeds, the manifest is tagged
`dto.to`. -/
theorem C4_resolver :
    (∀ (fetch : String → Option (Nat × Page)) (url : String),
      get_chapter_info fetch url =
        (probeList.find? (domainSucceeds fetch url)).bind (tryDomain fetch url)) ∧
    (∀ (fetch : String → Option (Nat × Page)) (url : String),
      get_chapter_info fetch url = none ↔
        ∀ d ∈ probeList, tryDomain fetch url d = none) ∧
    (∀ (fetch : String → Option (Nat × Page)) (url : String) (m : ChapterManifest),
      get_chapter_info fetch url = some m →
      ∃ pre post, probeList = pre ++ m.domain :: post ∧
        (∀ d ∈ pre, tryDomain fetch url d = none) ∧
        ∃ status page,
          fetch (rewrite_chapter_url url m.domain) = some (status, page) ∧
          status = 200 ∧ m.title = titleOf page ∧
          m.images = (extract_images_multi_strategy page.scripts).map rewrite_image_url ∧
          m.images ≠ []) ∧
    get_chapter_info fetch4 "https://bato.si/ch/5" =
      some ⟨"Title", ["https://a.com/1.jpg"], "dto.to"⟩ := by
  refine ⟨?_, ?_, ?_, by decide⟩
  · intro fetch url
    exact resolveLoop_eq_find fetch url probeList
  · intro fetch url
    exact resolveLoop_none_iff fetch url probeList
  · intro fetch url m h
    obtain ⟨pre, post, hsplit, hpre, hdom⟩ :=
      resolveLoop_some_split fetch url probeList m h
    exact ⟨pre, post, hsplit, hpre, (tryDomain_some fetch url m.domain m hdom).2⟩

/-- C4 (witness): with the fetch function on which only `dto.to`
succeeds, the resolved manifest sits at `dto.to` in the candidate list,
every earlier candidate fails, the winning page has status 200 and its
extracted images rewritten. -/
theorem C4_witness :
    ∃ pre post, probeList = pre ++ "dto.to" :: post ∧
      (∀ d ∈ pre, tryDomain fetch4 "https://bato.si/ch/5" d = none) ∧
      ∃ status page,
        fetch4 (rewrite_chapter_url "https://bato.si/ch/5" "dto.to") = some (status, page) ∧
        status = 200 ∧ ("Title" : String) = titleOf page ∧
        (["https://a.com/1.jpg"] : List String) =
          (extract_images_multi_strategy page.scripts).map rewrite_image_url ∧
        (["https://a.com/1.jpg"] : List String) ≠ [] :=
  C4_resolver.2.2.1 fetch4 "https://bato.si/ch/5"
    ⟨"Title", ["https://a.com/1.jpg"], "dto.to"⟩ (by decide)

/-! ## Claim C7 -/

theorem fallbackLoop_some : ∀ (scripts : List (Option String)) (u : List String),
    fallbackLoop scripts = some u →
    3 ≤ u.length ∧ u.Nodup ∧ ∃ s, some s ∈ scripts ∧ u = pyDedup (findall3 s.data) := by
  intro scripts
  induction scripts with
  | nil => intro u h; exact absurd h (by simp [fallbackLoop])
  | cons os rest ih =>
    intro u h
    cases os with
    | none =>
      obtain ⟨h1, h2, s, hs, hu⟩ := ih u h
      exact ⟨h1, h2, s, List.mem_cons_of_mem _ hs, hu⟩
    | some s =>
      have h' : (match findall3 s.data with
                 | [] => fallbackLoop rest
                 | u0 :: us =>
                   if 3 ≤ (pyDedup (u0 :: us)).length then some (pyDedup (u0 :: us))
                   else fallbackLoop rest) = some u := h
      cases hf : findall3 s.data with
      | nil =>
        rw [hf] at h'
        obtain ⟨h1, h2, s', hs', hu⟩ := ih u h'
        exact ⟨h1, h2, s', List.mem_cons_of_mem _ hs', hu⟩
      | cons u0 us =>
        rw [hf] at h'
        have h'' : (if 3 ≤ (pyDedup (u0 :: us)).length then some (pyDedup (u0 :: us))
                    else fallbackLoop rest) = some u := h'
        by_cases hlen : 3 ≤ (pyDedup (u0 :: us)).length
        · rw [if_pos hlen] at h''
          have hu := Option.some.inj h''
          subst hu
          exact ⟨hlen, pyDedup_nodup _, s, List.mem_cons_self _ _, by rw [hf]⟩
        · rw [if_neg hlen] at h''
          obtain ⟨h1, h2, s', hs', hu⟩ := ih u h''
          exact ⟨h1, h2, s', List.mem_cons_of_mem _ hs', hu⟩

/-- C7: when neither the structured-array strategy nor the marker-token
strategy fires on any script, the extractor returns either the empty
list or the deduplicated (first-seen order) broad-scan result of some
script, which then has at least 3 distinct URLs; and whenever fewer
than 3 distinct image-extension URLs occur across all scripts combined,
the extractor returns the empty list — even when 1 or 2 are present. -/
theorem C7_fallback_threshold :
    ∀ scripts : List (Option String), firstLoop scripts = none →
      (extract_images_multi_strategy scripts = [] ∨
        ∃ u, fallbackLoop scripts = some u ∧ extract_images_multi_strategy scripts = u ∧
          3 ≤ u.length ∧ u.Nodup ∧ ∃ s, some s ∈ scripts ∧ u = pyDedup (findall3 s.data)) ∧
      ((pyDedup ((scripts.reduceOption).flatMap (fun s => findall3 s.data))).length < 3 →
        extract_images_multi_strategy scripts = []) := by
  intro scripts hfl
  have hex : extract_images_multi_strategy scripts = (fallbackLoop scripts).getD [] := by
    unfold extract_images_multi_strategy
    rw [hfl]
  cases hfb : fallbackLoop scripts with
  | none =>
    rw [hfb] at hex
    exact ⟨Or.inl hex, fun _ => hex⟩
  | some u =>
    rw [hfb] at hex
    obtain ⟨h3, hnd, s, hs, hu⟩ := fallbackLoop_some scripts u hfb
    constructor
    · exact Or.inr ⟨u, rfl, hex, h3, hnd, s, hs, hu⟩
    · intro hpool
      exfalso
      have hsub : ∀ a ∈ findall3 s.data,
          a ∈ (scripts.reduceOption).flatMap (fun t => findall3 t.data) := by
        intro a ha
        rw [List.mem_flatMap]
        exact ⟨s, List.reduceOption_mem_iff.mpr hs, ha⟩
      have hmono := pyDedup_length_mono hsub
      rw [← hu] at hmono
      omega

/-- C7 (witness): a single script with two distinct image URLs and no
markers yields an empty extraction. -/
theorem C7_witness : extract_images_multi_strategy [some scrTwoUrls] = [] :=
  (C7_fallback_threshold [some scrTwoUrls] (by decide)).2 (by decide)

/-! ## Claim C5 -/

theorem chunkLoop_flatten (H : Nat) : ∀ (l cur : List PILImage) (ch : Nat),
    (chunkLoop H l cur ch).flatten = cur ++ l := by
  intro l
  induction l with
  | nil =>
    intro cur ch
    show (if cur.isEmpty then [] else [cur]).flatten = cur ++ []
    by_cases hc : cur.isEmpty = true
    · rw [if_pos hc]
      rw [List.isEmpty_iff] at hc
      simp [hc]
    · rw [if_neg hc]
      simp
  | cons img rest ih =>
    intro cur ch
    show (if H < ch + img.height && !cur.isEmpty then
            cur :: chunkLoop H rest [img] img.height
          else chunkLoop H rest (cur ++ [img]) (ch + img.height)).flatten =
      cur ++ (img :: rest)
    by_cases hg : (decide (H < ch + img.height) && !cur.isEmpty) = true
    · rw [if_pos hg]
      simp only [List.flatten_cons, ih]
      simp
    · rw [if_neg hg]
      rw [ih]
      simp

theorem chunkLoop_nonempty (H : Nat) : ∀ (l cur : List PILImage) (ch : Nat),
    ∀ c ∈ chunkLoop H l cur ch, c ≠ [] := by
  intro l
  induction l with
  | nil =>
    intro cur ch c hc
    by_cases h : cur.isEmpty = true
    · simp only [chunkLoop, if_pos h] at hc
      exact absurd hc (by simp)
    · simp only [chunkLoop, if_neg h] at hc
      rcases List.mem_singleton.mp hc with rfl
      intro hx
      rw [hx] at h
      exact h rfl
  | cons img rest ih =>
    intro cur ch c hc
    by_cases hg : (decide (H < ch + img.height) && !cur.isEmpty) = true
    · simp only [chunkLoop, if_pos hg] at hc
      rcases List.mem_cons.mp hc with rfl | hc
      · intro hx
        rw [Bool.and_eq_true] at hg
        rw [hx] at hg
        simp at hg
      · exact ih [img] img.height c hc
    · simp only [chunkLoop, if_neg hg] at hc
      exact ih (cur ++ [img]) (ch + img.height) c hc

theorem chunkHeight_append (c1 c2 : List PILImage) :
    chunkHeight (c1 ++ c2) = chunkHeight c1 + chunkHeight c2 := by
  unfold chunkHeight
  rw [List.map_append, List.sum_append]

theorem chunkLoop_bound (H : Nat) : ∀ (l cur : List PILImage) (ch : Nat),
    ch = chunkHeight cur → (chunkHeight cur ≤ H ∨ cur.length ≤ 1) →
    ∀ c ∈ chunkLoop H l cur ch, chunkHeight c ≤ H ∨ c.length = 1 := by
  intro l
  induction l with
  | nil =>
    intro cur ch hinv hb c hc
    by_cases h : cur.isEmpty = true
    · simp only [chunkLoop, if_pos h] at hc
      exact absurd hc (by simp)
    · simp only [chunkLoop, if_neg h] at hc
      rcases List.mem_singleton.mp hc with rfl
      rcases hb with hb | hb
      · exact Or.inl hb
      · refine Or.inr ?_
        cases hl : c.length with
        | zero =>
          rw [List.length_eq_zero] at hl
          rw [hl] at h
          exact absurd rfl h
        | succ n => omega
  | cons img rest ih =>
    intro cur ch hinv hb c hc
    by_cases hg : (decide (H < ch + img.height) && !cur.isEmpty) = true
    · simp only [chunkLoop, if_pos hg] at hc
      rcases List.mem_cons.mp hc with rfl | hc
      · rcases hb with hb | hb
        · exact Or.inl hb
        · refine Or.inr ?_
          rw [Bool.and_eq_true] at hg
          have hne : ¬(c.isEmpty = true) := by
            intro hx
            rw [hx] at hg
            simp at hg
          cases hl : c.length with
          | zero =>
            rw [List.length_eq_zero] at hl
            rw [hl] at hne
            exact (hne rfl).elim
          | succ n => omega
      · refine ih [img] img.height ?_ ?_ c hc
        · simp [chunkHeight]
        · exact Or.inr (by simp)
    · simp only [chunkLoop, if_neg hg] at hc
      refine ih (cur ++ [img]) (ch + img.height) ?_ ?_ c hc
      · rw [chunkHeight_append, ← hinv]
        simp [chunkHeight]
      · rw [Bool.and_eq_true, not_and_or] at hg
        rcases hg with hg | hg
        · left
          rw [chunkHeight_append, ← hinv]
          simp only [decide_eq_true_eq] at hg
          have : ¬ H < ch + img.height := by
            intro hx
            exact hg (by exact_mod_cast hx)
          have hch : chunkHeight [img] = img.height := by simp [chunkHeight]
          rw [hch]
          omega
        · right
          have : cur.isEmpty = true := by
            revert hg
            cases cur.isEmpty <;> simp
          rw [List.isEmpty_iff] at this
          rw [this]
          simp
    
theorem chunkLoop_head (H : Nat) : ∀ (l : List PILImage) (h0 : PILImage)
    (t0 : List PILImage) (ch : Nat),
    ∃ t cs, chunkLoop H l (h0 :: t0) ch = (h0 :: t) :: cs := by
  intro l
  induction l with
  | nil =>
    intro h0 t0 ch
    refine ⟨t0, [], ?_⟩
    simp [chunkLoop]
  | cons img rest ih =>
    intro h0 t0 ch
    by_cases hg : (decide (H < ch + img.height) && !(h0 :: t0).isEmpty) = true
    · refine ⟨t0, chunkLoop H rest [img] img.height, ?_⟩
      simp only [chunkLoop, if_pos hg]
    · obtain ⟨t, cs, ht⟩ := ih h0 (t0 ++ [img]) (ch + img.height)
      refine ⟨t, cs, ?_⟩
      simp only [chunkLoop, if_neg hg]
      rw [← ht]
      rfl

theorem chunkLoop_chain (H : Nat) : ∀ (l cur : List PILImage) (ch : Nat),
    ch = chunkHeight cur →
    List.Chain' (fun c1 c2 => H < chunkHeight c1 + c2.headI.height)
      (chunkLoop H l cur ch) := by
  intro l
  induction l with
  | nil =>
    intro cur ch hinv
    by_cases h : cur.isEmpty = true
    · simp only [chunkLoop, if_pos h]
      exact List.chain'_nil
    · simp only [chunkLoop, if_neg h]
      exact List.chain'_singleton cur
  | cons img rest ih =>
    intro cur ch hinv
    by_cases hg : (decide (H < ch + img.height) && !cur.isEmpty) = true
    · simp only [chunkLoop, if_pos hg]
      cases cur with
      | nil =>
        rw [Bool.and_eq_true] at hg
        simp at hg
      | cons c0 ct =>
        obtain ⟨t, cs, ht⟩ := chunkLoop_head H rest img [] img.height
        rw [ht]
        rw [List.chain'_cons]
        constructor
        · rw [Bool.and_eq_true, decide_eq_true_eq] at hg
          rw [hinv] at hg
          simpa using hg.1
        · rw [← ht]
          exact ih [img] img.height (by simp [chunkHeight])
    · simp only [chunkLoop, if_neg hg]
      refine ih (cur ++ [img]) (ch + img.height) ?_
      rw [chunkHeight_append, ← hinv]
      simp [chunkHeight]

/-- C5: for every positive chunk-height limit, the chunking walk keeps
every image whole and in order (the chunks flatten back to the input),
every chunk is non-empty and either fits within the limit or is a
single over-tall image kept alone, and a chunk is closed exactly when
the next image would overflow it (the closed chunk's height plus the
next chunk's first image height strictly exceeds the limit); heights
`[4000, 4000, 4000]` with limit 5000 give three singleton chunks, and
`[1000, 1000, 1000]` with limit 5000 give one chunk of total height
3000. -/
theorem C5_chunking :
    (∀ (H : Nat) (imgs : List PILImage), 0 < H →
      (chunkImages H imgs).flatten = imgs ∧
      (∀ c ∈ chunkImages H imgs, c ≠ [] ∧ (chunkHeight c ≤ H ∨ c.length = 1)) ∧
      List.Chain' (fun c1 c2 => H < chunkHeight c1 + c2.headI.height)
        (chunkImages H imgs)) ∧
    chunkImages 5000 [⟨700, 4000, "RGB"⟩, ⟨700, 4000, "RGB"⟩, ⟨700, 4000, "RGB"⟩] =
      [[⟨700, 4000, "RGB"⟩], [⟨700, 4000, "RGB"⟩], [⟨700, 4000, "RGB"⟩]] ∧
    chunkImages 5000 [⟨700, 1000, "RGB"⟩, ⟨700, 1000, "RGB"⟩, ⟨700, 1000, "RGB"⟩] =
      [[⟨700, 1000, "RGB"⟩, ⟨700, 1000, "RGB"⟩, ⟨700, 1000, "RGB"⟩]] ∧
    chunkHeight [⟨700, 1000, "RGB"⟩, ⟨700, 1000, "RGB"⟩, ⟨700, 1000, "RGB"⟩] = 3000 := by
  refine ⟨?_, by decide, by decide, by decide⟩
  intro H imgs _
  refine ⟨?_, ?_, ?_⟩
  · have h := chunkLoop_flatten H imgs [] 0
    simpa [chunkImages] using h
  · intro c hc
    refine ⟨chunkLoop_nonempty H imgs [] 0 c hc, ?_⟩
    refine chunkLoop_bound H imgs [] 0 ?_ ?_ c hc
    · simp [chunkHeight]
    · simp [chunkHeight]
  · exact chunkLoop_chain H imgs [] 0 (by simp [chunkHeight])

/-- C5 (witness): a single image taller than the limit occupies its own
chunk and nothing is split. -/
theorem C5_witness :
    (chunkImages 5000 [⟨700, 7000, "RGB"⟩, ⟨700, 100, "RGB"⟩]).flatten =
      [⟨700, 7000, "RGB"⟩, ⟨700, 100, "RGB"⟩] :=
  (C5_chunking.1 5000 [⟨700, 7000, "RGB"⟩, ⟨700, 100, "RGB"⟩] (by decide)).1

/-! ## Claim C1 -/

theorem to_rgb_width (img : PILImage) : (to_rgb img).width = img.width := by
  unfold to_rgb
  split
  · rfl
  · split
    · rfl
    · rfl

theorem updMin_some (m w : Nat) : updMin (some m) w = some (min m w) := by
  have h0 : updMin (some m) w = (if w < m then some w else some m) := rfl
  rw [h0]
  by_cases h : w < m
  · rw [if_pos h]
    congr 1
    omega
  · rw [if_neg h]
    congr 1
    omega

theorem loadOne_width (m : Nat) (img : PILImage) (hm : m ≠ 0) :
    (loadOne (some m) img).width = m := by
  have h1 : loadOne (some m) img =
      (if !(m == 0) && !((to_rgb img).width == m) then resizeTo (to_rgb img) m
       else to_rgb img) := rfl
  rw [h1]
  by_cases he : (to_rgb img).width = m
  · rw [if_neg (by simp [he])]
    exact he
  · rw [if_pos (by simp [he, hm])]
    rfl

theorem loadPass_go : ∀ (files : List (Option PILImage)) (m : Nat), 0 < m →
    (∀ i ∈ files.reduceOption, 0 < i.width) →
    (loadPass (some m) files).1 =
      some (((files.reduceOption).map PILImage.width).foldl min m) ∧
    (loadPass (some m) files).2.map PILImage.width =
      pmAux m ((files.reduceOption).map PILImage.width) := by
  intro files
  induction files with
  | nil => intro m hm _; exact ⟨rfl, rfl⟩
  | cons of rest ih =>
    intro m hm hw
    cases of with
    | none =>
      have hr : loadPass (some m) (none :: rest) = loadPass (some m) rest := rfl
      rw [hr, List.reduceOption_cons_of_none]
      refine ih m hm ?_
      intro i hi
      refine hw i ?_
      rw [List.reduceOption_cons_of_none]
      exact hi
    | some img =>
      have h0w : 0 < img.width := by
        refine hw img ?_
        rw [List.reduceOption_cons_of_some]
        exact List.mem_cons_self _ _
      have hrest : ∀ i ∈ rest.reduceOption, 0 < i.width := by
        intro i hi
        refine hw i ?_
        rw [List.reduceOption_cons_of_some]
        exact List.mem_cons_of_mem _ hi
      have h1 : loadPass (some m) (some img :: rest) =
          ((loadPass (updMin (some m) img.width) rest).1,
           loadOne (updMin (some m) img.width) img ::
             (loadPass (updMin (some m) img.width) rest).2) := rfl
      have hmin : 0 < min m img.width := by omega
      obtain ⟨ih1, ih2⟩ := ih (min m img.width) hmin hrest
      rw [h1, updMin_some]
      rw [List.reduceOption_cons_of_some]
      constructor
      · simp only [List.map_cons, List.foldl_cons]
        exact ih1
      · simp only [List.map_cons]
        show (loadOne (some (min m img.width)) img).width ::
            (loadPass (some (min m img.width)) rest).2.map PILImage.width =
          pmAux m (img.width :: (rest.reduceOption).map PILImage.width)
        rw [loadOne_width _ _ (by omega), ih2]
        rfl

theorem foldl_min_le (ws : List Nat) : ∀ m : Nat, ws.foldl min m ≤ m := by
  induction ws with
  | nil => intro m; exact le_rfl
  | cons w ws ih =>
    intro m
    simp only [List.foldl_cons]
    calc ws.foldl min (min m w) ≤ min m w := ih (min m w)
      _ ≤ m := min_le_left m w

theorem foldl_min_le_pmAux (ws : List Nat) : ∀ m : Nat, ∀ x ∈ pmAux m ws,
    ws.foldl min m ≤ x := by
  induction ws with
  | nil => intro m x hx; exact absurd hx (by simp [pmAux])
  | cons w ws ih =>
    intro m x hx
    simp only [pmAux] at hx
    rcases List.mem_cons.mp hx with rfl | hx
    · simp only [List.foldl_cons]
      exact foldl_min_le ws (min m w)
    · simp only [List.foldl_cons]
      exact ih (min m w) x hx

theorem min?_getD_le_prefixMins (ws : List Nat) : ∀ x ∈ prefixMins ws,
    ws.min?.getD 0 ≤ x := by
  cases ws with
  | nil => intro x hx; exact absurd hx (by simp [prefixMins])
  | cons w ws =>
    intro x hx
    simp only [prefixMins] at hx
    have hmin : (w :: ws).min? = some (ws.foldl min w) := rfl
    rw [hmin]
    rcases List.mem_cons.mp hx with hxw | hx
    · rw [hxw]
      exact foldl_min_le ws w
    · exact foldl_min_le_pmAux ws w x hx

theorem pmAux_le_each (ws : List Nat) : ∀ m : Nat,
    List.Forall₂ (fun o i => o ≤ i) (pmAux m ws) ws := by
  induction ws with
  | nil => intro m; exact List.Forall₂.nil
  | cons w ws ih =>
    intro m
    simp only [pmAux]
    exact List.Forall₂.cons (min_le_right m w) (ih (min m w))

theorem prefixMins_le_each (ws : List Nat) :
    List.Forall₂ (fun o i => o ≤ i) (prefixMins ws) ws := by
  cases ws with
  | nil => exact List.Forall₂.nil
  | cons w ws => exact List.Forall₂.cons le_rfl (pmAux_le_each ws w)

/-- C1 (counterexample): with staged images of widths 800 then 600, the
normalize+measure pass leaves the first image at width 800 — not the
minimum width 600 of the whole set — because the code only compares
against the *running* minimum; consequently the first member is wider
than the eventual stitched canvas (width 600). -/
theorem C1_counterexample :
    (loadPass none [some ⟨800, 1200, "RGB"⟩, some ⟨600, 900, "RGB"⟩]).2.map
        PILImage.width = [800, 600] ∧
    (loadPass none [some ⟨800, 1200, "RGB"⟩, some ⟨600, 900, "RGB"⟩]).1 = some 600 ∧
    ¬ (∀ o ∈ (loadPass none [some ⟨800, 1200, "RGB"⟩, some ⟨600, 900, "RGB"⟩]).2,
        o.width = 600) := by
  refine ⟨by decide, by decide, by decide⟩

/-- C1 (amended): after the normalize+measure pass, the i-th processed
image has width equal to the *running* minimum over the images loaded
so far (the list of widths is the sequence of prefix minima), the final
minimum is the minimum over the whole loaded set, no image is ever
upscaled, and every processed image is at least as wide as the stitched
canvas (whose width is the final minimum) — not the other way around as
the original claim stated. -/
theorem C1_amended :
    ∀ files : List (Option PILImage),
      (∀ i ∈ files.reduceOption, 0 < i.width) →
      ((loadPass none files).2.map PILImage.width =
        prefixMins ((files.reduceOption).map PILImage.width)) ∧
      (loadPass none files).1 = ((files.reduceOption).map PILImage.width).min? ∧
      List.Forall₂ (fun o i => o ≤ i)
        ((loadPass none files).2.map PILImage.width)
        ((files.reduceOption).map PILImage.width) ∧
      (∀ o ∈ (loadPass none files).2, (loadPass none files).1.getD 0 ≤ o.width) := by
  intro files hw
  have hmain : ((loadPass none files).2.map PILImage.width =
      prefixMins ((files.reduceOption).map PILImage.width)) ∧
      (loadPass none files).1 = ((files.reduceOption).map PILImage.width).min? := by
    induction files with
    | nil => exact ⟨rfl, rfl⟩
    | cons of rest ih =>
      cases of with
      | none =>
        have hr : loadPass none (none :: rest) = loadPass none rest := rfl
        rw [hr, List.reduceOption_cons_of_none]
        refine ih ?_
        intro i hi
        refine hw i ?_
        rw [List.reduceOption_cons_of_none]
        exact hi
      | some img =>
        have h0w : 0 < img.width := by
          refine hw img ?_
          rw [List.reduceOption_cons_of_some]
          exact List.mem_cons_self _ _
        have hrest : ∀ i ∈ rest.reduceOption, 0 < i.width := by
          intro i hi
          refine hw i ?_
          rw [List.reduceOption_cons_of_some]
          exact List.mem_cons_of_mem _ hi
        have h1 : loadPass none (some img :: rest) =
            ((loadPass (some img.width) rest).1,
             loadOne (some img.width) img ::
               (loadPass (some img.width) rest).2) := rfl
        obtain ⟨g1, g2⟩ := loadPass_go rest img.width h0w hrest
        rw [h1, List.reduceOption_cons_of_some]
        constructor
        · simp only [List.map_cons]
          show (loadOne (some img.width) img).width ::
              (loadPass (some img.width) rest).2.map PILImage.width =
            prefixMins (img.width :: (rest.reduceOption).map PILImage.width)
          rw [loadOne_width _ _ (by omega), g2]
          rfl
        · exact g1
  refine ⟨hmain.1, hmain.2, ?_, ?_⟩
  · rw [hmain.1]
    exact prefixMins_le_each _
  · intro o ho
    rw [hmain.2]
    refine min?_getD_le_prefixMins _ o.width ?_
    rw [← hmain.1]
    exact List.mem_map_of_mem PILImage.width ho

/-- C1 (witness): the amended statement evaluated on loaded widths
`[800, 600]`: the processed widths are the prefix minima `[800, 600]`. -/
theorem C1_witness :
    (loadPass none [some ⟨800, 1200, "RGB"⟩, some ⟨600, 900, "RGB"⟩]).2.map
      PILImage.width = prefixMins [800, 600] :=
  (C1_amended [some ⟨800, 1200, "RGB"⟩, some ⟨600, 900, "RGB"⟩] (by decide)).1

/-! ## Claim C6 -/

theorem skipBatchedF_eq : ∀ (fuel : Nat) (files : List StagedFile),
    files.length ≤ fuel → skipBatchedF fuel files = files.filterMap skipConv := by
  intro fuel
  induction fuel with
  | zero =>
    intro files h
    have hf : files = [] := List.length_eq_zero.mp (by omega)
    rw [hf]
    rfl
  | succ f ih =>
    intro files h
    cases files with
    | nil => rfl
    | cons a t =>
      show ((a :: t).take 50).filterMap skipConv ++ skipBatchedF f ((a :: t).drop 50) =
        (a :: t).filterMap skipConv
      rw [ih ((a :: t).drop 50) (by
        rw [List.length_drop]
        simp only [List.length_cons] at h ⊢
        omega)]
      rw [← List.filterMap_append, List.take_append_drop]

theorem skipBatched_eq (files : List StagedFile) :
    skipBatched files = files.filterMap skipConv :=
  skipBatchedF_eq files.length files le_rfl

theorem filterMap_skipConv_length : ∀ files : List StagedFile,
    (files.filterMap skipConv).length =
      (files.filter (fun f => f.2.isSome)).length := by
  intro files
  induction files with
  | nil => rfl
  | cons a t ih =>
    cases ha : a.2 with
    | none =>
      have h1 : skipConv a = none := by
        unfold skipConv
        rw [ha]
        rfl
      rw [List.filterMap_cons, List.filter_cons]
      rw [h1, ha]
      simpa using ih
    | some img =>
      have h1 : skipConv a = some (to_rgb img) := by
        unfold skipConv
        rw [ha]
        rfl
      rw [List.filterMap_cons, List.filter_cons]
      rw [h1, ha]
      simpa using ih

theorem images_to_pdf_skip (listing : List StagedFile) :
    images_to_pdf_lossless listing 0 =
      (if (pySorted fileLe (listing.filter (fun f => hasImageExt f.1))).isEmpty then none
       else if (skipBatched (pySorted fileLe
           (listing.filter (fun f => hasImageExt f.1)))).isEmpty then none
       else some (skipBatched (pySorted fileLe
           (listing.filter (fun f => hasImageExt f.1))))) := rfl

/-- C6: in skip mode the staged files are filtered to recognized image
extensions and sorted by the natural (numeric-aware) key: the sorted
list is a permutation of the filtered files and is sorted under the
natural-key order; the fixed-size progress batches have no effect (the
batched walk equals a plain conversion of the sorted list); the number
of produced pages equals the number of valid images (recognized
extension and a successful open); any produced document's pages are
exactly the sorted files' conversions in order; and
`["page_0002.jpg", "page_0010.jpg", "page_0001.jpg"]` sorts to
`["page_0001.jpg", "page_0002.jpg", "page_0010.jpg"]`. -/
theorem C6_skip_mode :
    (∀ listing : List StagedFile,
      (pySorted fileLe (listing.filter (fun f => hasImageExt f.1))).Perm
        (listing.filter (fun f => hasImageExt f.1)) ∧
      (pySorted fileLe (listing.filter (fun f => hasImageExt f.1))).Sorted
        (fun a b => fileLe a b = true) ∧
      skipBatched (pySorted fileLe (listing.filter (fun f => hasImageExt f.1))) =
        (pySorted fileLe (listing.filter (fun f => hasImageExt f.1))).filterMap skipConv ∧
      (skipBatched (pySorted fileLe (listing.filter (fun f => hasImageExt f.1)))).length =
        (listing.filter (fun f => f.2.isSome && hasImageExt f.1)).length ∧
      (∀ pages : List PILImage, images_to_pdf_lossless listing 0 = some pages →
        pages = (pySorted fileLe (listing.filter (fun f => hasImageExt f.1))).filterMap
          skipConv)) ∧
    pySorted natKeyLe ["page_0002.jpg", "page_0010.jpg", "page_0001.jpg"] =
      ["page_0001.jpg", "page_0002.jpg", "page_0010.jpg"] := by
  refine ⟨?_, by decide⟩
  intro listing
  have hperm := pySorted_perm fileLe (listing.filter (fun f => hasImageExt f.1))
  refine ⟨hperm, pySorted_sorted fileLe fileLe_total fileLe_trans _, skipBatched_eq _,
    ?_, ?_⟩
  · rw [skipBatched_eq, filterMap_skipConv_length]
    rw [(hperm.filter (fun f => f.2.isSome)).length_eq]
    rw [List.filter_filter]
  · intro pages hp
    rw [images_to_pdf_skip] at hp
    by_cases h1 : (pySorted fileLe (listing.filter (fun f => hasImageExt f.1))).isEmpty = true
    · rw [if_pos h1] at hp
      exact absurd hp (by simp)
    · rw [if_neg h1] at hp
      by_cases h2 : (skipBatched (pySorted fileLe
          (listing.filter (fun f => hasImageExt f.1)))).isEmpty = true
      · rw [if_pos h2] at hp
        exact absurd hp (by simp)
      · rw [if_neg h2] at hp
        have := Option.some.inj hp
        rw [← this, skipBatched_eq]

/-- C6 (witness): a staging listing with three recognized image files
(one failing to open), a non-image file, and out-of-order names yields
exactly the two valid pages in natural-sort order. -/
theorem C6_witness :
    ([⟨10, 30, "RGB"⟩, ⟨10, 20, "RGB"⟩] : List PILImage) =
      (pySorted fileLe
        (([("page_0002.jpg", some ⟨10, 20, "RGBA"⟩),
           ("page_0001.jpg", some ⟨10, 30, "RGB"⟩),
           ("notes.txt", some ⟨9, 9, "RGB"⟩),
           ("page_0003.jpg", none)] : List StagedFile).filter
          (fun f => hasImageExt f.1))).filterMap skipConv :=
  (C6_skip_mode.1 [("page_0002.jpg", some ⟨10, 20, "RGBA"⟩),
      ("page_0001.jpg", some ⟨10, 30, "RGB"⟩),
      ("notes.txt", some ⟨9, 9, "RGB"⟩),
      ("page_0003.jpg", none)]).2.2.2.2
    [⟨10, 30, "RGB"⟩, ⟨10, 20, "RGB"⟩] (by decide)
